import Mathlib

/-!
Verification of the per-line tokenizer of the `denture` repository
(`src/parser/tokenizer/line.rs` and the token vocabulary of
`src/parser/tokenizer/mod.rs`).

The embedding works on `List Char` (one Rust `char` per element) and keeps
the byte-oriented view of the Rust code: positions are UTF-8 byte offsets,
exactly as produced by `str::char_indices`, and every string slice
`&input[a..b]` is modelled by a function into Option that returns `none`
whenever the Rust expression would panic (slice not on a character
boundary, out of range, or reversed).  A Rust `usize` subtraction that
would underflow and the `unwrap` in the string-prefix state are modelled
the same way.  Hence a result of `none` means "the Rust code panics",
`some (Except.error e)` models `Err(e)` and `some (Except.ok r)` models
`Ok(r)`.

The Unicode character classes used by the source (`char::is_numeric`,
`is_xid_start` and `is_xid_continue` of the unicode_xid crate) are embedded by their
restrictions to the ASCII range, where they are exactly: the decimal
digits, the letters, and letters/digits/underscore respectively.
-/

namespace Denture

/-! ## Token vocabulary (src/parser/tokenizer/mod.rs) -/

inductive Operator where
  | colon
  | plus
  deriving DecidableEq, Repr

inductive Token where
  | comment (text : List Char)
  | identifier (text : List Char)
  | whitespaces (text : List Char)
  | operator (op : Operator)
  | binNumber (text : List Char)
  | octNumber (text : List Char)
  | decNumber (text : List Char)
  | hexNumber (text : List Char)
  deriving DecidableEq, Repr

/-! ## States of the line tokenizer (src/parser/tokenizer/line.rs) -/

inductive StringQuote where
  | single
  | double
  | single3
  | double3
  deriving DecidableEq, Repr

inductive NumberType where
  | hex
  | oct
  | bin
  | dec
  deriving DecidableEq, Repr

/-- `NumberType::radix`. -/
def NumberType.radix : NumberType → Nat
  | .hex => 16
  | .oct => 8
  | .bin => 2
  | .dec => 10

/-- `NumberType::token_builder`. -/
def NumberType.token_builder : NumberType → (List Char → Token)
  | .hex => Token.hexNumber
  | .oct => Token.octNumber
  | .bin => Token.binNumber
  | .dec => Token.decNumber

inductive NumberState where
  | normal
  | underscore
  deriving DecidableEq, Repr

inductive State where
  | indent
  | identifier (startsAt : Nat)
  | comment (startsAt : Nat)
  | zero
  | zeroPadded (startsAt : Nat)
  | stringPrefixSingle
  | stringPrefixDouble
  | string (q : StringQuote) (startsAt : Nat)
  | whitespaces (startsAt : Nat)
  | number (t : NumberType) (ns : NumberState) (startsAt : Nat)
  | empty
  deriving DecidableEq, Repr

/-- The two error variants.  The Rust enum stores `state.to_string()`, a
string rendering of the active state; the embedding stores the state value
itself (the preimage of that rendering). -/
inductive Error where
  | invalidCharacter (state : State) (c : Char)
  | invalidTerminalState (state : State)
  deriving DecidableEq, Repr

/-- The `LineTokenizer` result: indentation offset plus the token list. -/
structure LineTokenizer where
  offset : Nat
  tokens : List Token
  deriving DecidableEq, Repr

/-! ## Characters, UTF-8 byte lengths and byte-indexed slicing -/

/-- UTF-8 byte length of one codepoint, as in Rust `char::len_utf8`. -/
def utf8Len (c : Char) : Nat :=
  if c.toNat < 0x80 then 1
  else if c.toNat < 0x800 then 2
  else if c.toNat < 0x10000 then 3
  else 4

/-- Total UTF-8 byte length of a list of codepoints (`str::len`). -/
def byteLen (cs : List Char) : Nat := (cs.map utf8Len).sum

/-- Models `&input[a..]`: drops `a` bytes.  `none` when `a` is not a
character boundary or lies beyond the end (a Rust panic). -/
def sliceFrom (cs : List Char) (a : Nat) : Option (List Char) :=
  if a = 0 then some cs
  else
    match cs with
    | [] => none
    | c :: rest => if utf8Len c ≤ a then sliceFrom rest (a - utf8Len c) else none

/-- Models `&input[..b]` on a suffix: takes `b` bytes.  `none` when `b`
is not a character boundary or lies beyond the end (a Rust panic). -/
def sliceTo (cs : List Char) (b : Nat) : Option (List Char) :=
  if b = 0 then some []
  else
    match cs with
    | [] => none
    | c :: rest =>
      if utf8Len c ≤ b then (sliceTo rest (b - utf8Len c)).map (c :: ·) else none

/-- Models `&input[a..b]`: `none` exactly when the Rust slice panics. -/
def byteSlice (cs : List Char) (a b : Nat) : Option (List Char) :=
  if a ≤ b then (sliceFrom cs a).bind (fun t => sliceTo t (b - a)) else none

/-- `char::to_ascii_lowercase`: add 32 to an ASCII uppercase letter. -/
def toAsciiLowercase (c : Char) : Char :=
  if 65 ≤ c.toNat ∧ c.toNat ≤ 90 then Char.ofNat (c.toNat + 32) else c

/-- `char::is_numeric` restricted to ASCII: exactly the digits 0-9
(the Unicode Nd/Nl/No classes contain no other ASCII codepoint). -/
def is_numeric (c : Char) : Bool := decide (48 ≤ c.toNat ∧ c.toNat ≤ 57)

/-- `char::is_digit(radix)`: the value of the digit is below the radix. -/
def isDigitRadix (c : Char) (radix : Nat) : Bool :=
  if 48 ≤ c.toNat ∧ c.toNat ≤ 57 then decide (c.toNat - 48 < radix)
  else if 97 ≤ c.toNat ∧ c.toNat ≤ 122 then decide (c.toNat - 97 + 10 < radix)
  else if 65 ≤ c.toNat ∧ c.toNat ≤ 90 then decide (c.toNat - 65 + 10 < radix)
  else false

/-- `unicode_xid::UnicodeXID::is_xid_start` restricted to ASCII: exactly
the letters (in particular `'_'` is not in the class). -/
def is_xid_start (c : Char) : Bool :=
  decide ((65 ≤ c.toNat ∧ c.toNat ≤ 90) ∨ (97 ≤ c.toNat ∧ c.toNat ≤ 122))

/-- `unicode_xid::UnicodeXID::is_xid_continue` restricted to ASCII:
letters, digits and the underscore. -/
def is_xid_continue (c : Char) : Bool :=
  is_xid_start c || is_numeric c || decide (c = '_')

def singleQuoteChar : Char := Char.ofNat 39

def doubleQuoteChar : Char := Char.ofNat 34

/-! ## The tokenizer -/

/-- `match_first_char`: dispatch on the character that starts a fresh
token.  Returns the next state (`none` = unrecognized character) and the
token, if any, emitted in the same step. -/
def match_first_char (index : Nat) (c : Char) : Option State × Option Token :=
  let lc := toAsciiLowercase c
  if lc = '#' then (some (State.comment index), none)
  else if lc = 'b' ∨ lc = 'f' ∨ lc = 'r' ∨ lc = 'u' then (some State.stringPrefixSingle, none)
  else if lc = '0' then (some State.zero, none)
  else if lc = ' ' then (some (State.whitespaces index), none)
  else if lc = ':' then (some State.empty, some (Token.operator Operator.colon))
  else if lc = '+' then (some State.empty, some (Token.operator Operator.plus))
  else if is_numeric lc then (some (State.number NumberType.dec NumberState.normal index), none)
  else if is_xid_start lc then (some (State.identifier index), none)
  else (none, none)

/-- The `match_first_char` call sites in the scan loop: push the emitted
token, if any, and turn a `none` state into `InvalidCharacter` with the
ending state `s`. -/
def dispatch (s : State) (index : Nat) (c : Char) (tokens : List Token) :
    Except Error (State × List Token) :=
  match match_first_char index c with
  | (some st, some tk) => Except.ok (st, tokens ++ [tk])
  | (some st, none) => Except.ok (st, tokens)
  | (none, _) => Except.error (Error.invalidCharacter s c)

/-- The shared shape of the token-ending arms: push the token built from
the span `startsAt..index`, then dispatch `c` as a fresh token start.
`none` models the panic of an invalid slice. -/
def endToken (input : List Char) (build : List Char → Token) (startsAt index : Nat)
    (s : State) (c : Char) (tokens : List Token) :
    Option (Except Error (State × List Token)) :=
  match byteSlice input startsAt index with
  | none => none
  | some lex => some (dispatch s index c (tokens ++ [build lex]))

/-- One iteration of the scan loop of `LineTokenizer::from_str`: the
current character `c` sits at byte position `index`.  Returns the next
(state, offset, tokens) triple, an error, or `none` for a panic. -/
def stepLine (input : List Char) (index : Nat) (c : Char) :
    State → Nat → List Token → Option (Except Error (State × Nat × List Token))
  | State.indent, offset, tokens =>
    if c = ' ' then some (Except.ok (State.indent, offset, tokens))
    else some ((dispatch State.indent index c tokens).map fun p => (p.1, index, p.2))
  | State.whitespaces startsAt, offset, tokens =>
    (endToken input Token.whitespaces startsAt index (State.whitespaces startsAt) c tokens).map
      (fun r => r.map fun p => (p.1, offset, p.2))
  | State.zero, offset, tokens =>
    if c = 'x' ∨ c = 'X' then
      if index = 0 then none
      else some (Except.ok (State.number NumberType.hex NumberState.normal (index - 1), offset, tokens))
    else if c = 'b' ∨ c = 'B' then
      if index = 0 then none
      else some (Except.ok (State.number NumberType.bin NumberState.normal (index - 1), offset, tokens))
    else if c = 'o' ∨ c = 'O' then
      if index = 0 then none
      else some (Except.ok (State.number NumberType.oct NumberState.normal (index - 1), offset, tokens))
    else if c = '0' then
      if index = 0 then none
      else some (Except.ok (State.zeroPadded (index - 1), offset, tokens))
    else some (Except.error (Error.invalidCharacter State.zero c))
  | State.stringPrefixSingle, offset, tokens =>
    if index = 0 then none
    else
      match sliceFrom input (index - 1) with
      | none => none
      | some [] => none
      | some (p :: _) =>
        let pl := toAsciiLowercase p
        let cl := toAsciiLowercase c
        if ((pl = 'b' ∨ pl = 'f') ∧ cl = 'r') ∨ (pl = 'r' ∧ (cl = 'b' ∨ cl = 'f')) then
          some (Except.ok (State.stringPrefixDouble, offset, tokens))
        else if cl = singleQuoteChar then
          some (Except.ok (State.string StringQuote.single (index - 1), offset, tokens))
        else if cl = doubleQuoteChar then
          some (Except.ok (State.string StringQuote.double (index - 1), offset, tokens))
        else some (Except.ok (State.identifier (index - 1), offset, tokens))
  | State.number t ns startsAt, offset, tokens =>
    if (t = NumberType.hex ∨ t = NumberType.oct ∨ t = NumberType.bin) ∧ ns = NumberState.normal then
      if isDigitRadix c t.radix then
        some (Except.ok (State.number t NumberState.normal startsAt, offset, tokens))
      else
        (endToken input t.token_builder startsAt index (State.number t ns startsAt) c tokens).map
          (fun r => r.map fun p => (p.1, offset, p.2))
    else if t = NumberType.dec then
      if is_numeric c then
        some (Except.ok (State.number NumberType.dec NumberState.normal startsAt, offset, tokens))
      else if c = '_' ∧ ns = NumberState.normal then
        some (Except.ok (State.number NumberType.dec NumberState.underscore startsAt, offset, tokens))
      else if ns = NumberState.normal then
        (endToken input Token.hexNumber startsAt index (State.number t ns startsAt) c tokens).map
          (fun r => r.map fun p => (p.1, offset, p.2))
      else some (Except.error (Error.invalidCharacter (State.number t ns startsAt) c))
    else some (Except.error (Error.invalidCharacter (State.number t ns startsAt) c))
  | State.identifier startsAt, offset, tokens =>
    if is_xid_continue c then some (Except.ok (State.identifier startsAt, offset, tokens))
    else
      (endToken input Token.identifier startsAt index (State.identifier startsAt) c tokens).map
        (fun r => r.map fun p => (p.1, offset, p.2))
  | State.empty, offset, tokens =>
    some ((dispatch State.empty index c tokens).map fun p => (p.1, offset, p.2))
  | State.comment startsAt, offset, tokens =>
    some (Except.ok (State.comment startsAt, offset, tokens))
  | st, _, _ =>
    some (Except.error (Error.invalidCharacter st c))

/-- End-of-line resolution of the pending state. -/
def finishLine (input : List Char) (state : State) (offset : Nat) (tokens : List Token) :
    Option (Except Error LineTokenizer) :=
  match state with
  | State.comment startsAt =>
    (sliceFrom input startsAt).map fun lex =>
      Except.ok ⟨offset, tokens ++ [Token.comment lex]⟩
  | State.number t NumberState.normal startsAt =>
    (sliceFrom input startsAt).map fun lex =>
      Except.ok ⟨offset, tokens ++ [t.token_builder lex]⟩
  | State.indent => some (Except.ok ⟨offset, tokens⟩)
  | State.whitespaces _ => some (Except.ok ⟨offset, tokens⟩)
  | State.empty => some (Except.ok ⟨offset, tokens⟩)
  | State.identifier startsAt =>
    (sliceFrom input startsAt).map fun lex =>
      Except.ok ⟨offset, tokens ++ [Token.identifier lex]⟩
  | st => some (Except.error (Error.invalidTerminalState st))

/-- The scan loop: `cs` is the remaining input, `pos` the byte position of
its first character. -/
def runFrom (input : List Char) (cs : List Char) (pos : Nat) (state : State)
    (offset : Nat) (tokens : List Token) : Option (Except Error LineTokenizer) :=
  match cs with
  | [] => finishLine input state offset tokens
  | c :: rest =>
    match stepLine input pos c state offset tokens with
    | none => none
    | some (Except.error e) => some (Except.error e)
    | some (Except.ok (st, off, toks)) => runFrom input rest (pos + utf8Len c) st off toks

/-- `LineTokenizer::from_str`.  `none` models a panic, `some` the
`Result` value. -/
def fromStr (input : List Char) : Option (Except Error LineTokenizer) :=
  runFrom input input 0 State.indent 0 []

/-! ## Rendering a token back to its lexeme -/

/-- The source text a token stands for: the stored lexeme, or the fixed
rendering of the two operators. -/
def Token.render : Token → List Char
  | .comment t => t
  | .identifier t => t
  | .whitespaces t => t
  | .operator .colon => [':']
  | .operator .plus => ['+']
  | .binNumber t => t
  | .octNumber t => t
  | .decNumber t => t
  | .hexNumber t => t

def renderTokens (ts : List Token) : List Char := (ts.map Token.render).flatten

/-! ## The scan invariant

`k` counts the characters already consumed.  The invariant ties the
current state, offset and emitted tokens to the consumed prefix
`input.take k`; in particular every stored `startsAt` is the byte
position of a character boundary, and the rendered tokens plus the
pending lexeme reproduce the consumed prefix. -/

def EmitInv (input : List Char) (k s : Nat) (offset : Nat) (tokens : List Token) : Prop :=
  ∃ j, j ≤ k ∧ s = byteLen (input.take j) ∧
    List.replicate offset ' ' ++ renderTokens tokens = input.take j

def StateInv (input : List Char) (k : Nat) : State → Nat → List Token → Prop
  | State.indent, offset, tokens =>
      offset = 0 ∧ tokens = [] ∧ ∀ c ∈ input.take k, c = ' '
  | State.whitespaces s, offset, tokens =>
      ∃ j, j + 1 = k ∧ s = byteLen (input.take j) ∧ input[j]? = some ' ' ∧
        List.replicate offset ' ' ++ renderTokens tokens = input.take j
  | State.identifier s, offset, tokens => EmitInv input k s offset tokens
  | State.comment s, offset, tokens => EmitInv input k s offset tokens
  | State.number _ _ s, offset, tokens => EmitInv input k s offset tokens
  | State.empty, offset, tokens =>
      List.replicate offset ' ' ++ renderTokens tokens = input.take k
  | State.zero, offset, tokens =>
      ∃ j, j + 1 = k ∧ input[j]? = some '0' ∧
        List.replicate offset ' ' ++ renderTokens tokens = input.take j
  | State.stringPrefixSingle, offset, tokens =>
      ∃ j p, j + 1 = k ∧ input[j]? = some p ∧ utf8Len p = 1 ∧
        List.replicate offset ' ' ++ renderTokens tokens = input.take j
  | _, _, _ => True


/-! ## Basic facts about characters and byte lengths -/

theorem char_eq_of_toNat_eq {a b : Char} (h : a.toNat = b.toNat) : a = b := by
  rw [← Char.ofNat_toNat a, ← Char.ofNat_toNat b, h]

theorem char_ne_of_toNat_ne {a b : Char} (h : a.toNat ≠ b.toNat) : a ≠ b :=
  fun he => h (he ▸ rfl)

theorem utf8Len_pos (c : Char) : 0 < utf8Len c := by
  unfold utf8Len; split_ifs <;> omega

theorem utf8Len_of_lt {c : Char} (h : c.toNat < 128) : utf8Len c = 1 := by
  unfold utf8Len; rw [if_pos (by omega)]

theorem toNat_ofNat_of_valid {n : Nat} (h : n < 55296) : (Char.ofNat n).toNat = n := by
  have hv : n.isValidChar := Or.inl h
  rw [Char.ofNat, dif_pos hv]
  rfl

theorem toLower_spec (c : Char) :
    (¬(65 ≤ c.toNat ∧ c.toNat ≤ 90) ∧ toAsciiLowercase c = c) ∨
      (65 ≤ c.toNat ∧ c.toNat ≤ 90 ∧ (toAsciiLowercase c).toNat = c.toNat + 32) := by
  unfold toAsciiLowercase
  split_ifs with h
  · exact Or.inr ⟨h.1, h.2, toNat_ofNat_of_valid (by omega)⟩
  · exact Or.inl ⟨h, rfl⟩

theorem eq_of_toLower_eq_nonlower {c d : Char} (h : toAsciiLowercase c = d)
    (hd : ¬(97 ≤ d.toNat ∧ d.toNat ≤ 122)) : c = d := by
  subst h
  rcases toLower_spec c with ⟨hnu, h0⟩ | ⟨h1, h2, h3⟩
  · exact h0.symm
  · exact absurd ⟨by omega, by omega⟩ hd

theorem utf8Len_one_of_toLower_ascii {c d : Char} (h : toAsciiLowercase c = d)
    (hd : d.toNat < 128) : utf8Len c = 1 := by
  subst h
  rcases toLower_spec c with ⟨hnu, h0⟩ | ⟨h1, h2, h3⟩
  · rw [h0] at hd; exact utf8Len_of_lt hd
  · exact utf8Len_of_lt (by omega)

theorem toLower_eq_self {c : Char} (h : ¬(65 ≤ c.toNat ∧ c.toNat ≤ 90)) :
    toAsciiLowercase c = c := by
  rcases toLower_spec c with ⟨hnu, h0⟩ | ⟨h1, h2, _⟩
  · exact h0
  · exact absurd ⟨h1, h2⟩ h

theorem byteLen_nil : byteLen [] = 0 := rfl

theorem byteLen_cons (c : Char) (cs : List Char) :
    byteLen (c :: cs) = utf8Len c + byteLen cs := by
  simp [byteLen]

theorem byteLen_append (xs ys : List Char) :
    byteLen (xs ++ ys) = byteLen xs + byteLen ys := by
  simp [byteLen]

theorem sliceFrom_zero (cs : List Char) : sliceFrom cs 0 = some cs := by
  unfold sliceFrom; simp

theorem sliceFrom_cons_pos (c : Char) (cs : List Char) (a : Nat) (h : a ≠ 0) :
    sliceFrom (c :: cs) a =
      if utf8Len c ≤ a then sliceFrom cs (a - utf8Len c) else none := by
  conv_lhs => unfold sliceFrom
  rw [if_neg h]

theorem sliceTo_zero (cs : List Char) : sliceTo cs 0 = some [] := by
  unfold sliceTo; simp

theorem sliceTo_cons_pos (c : Char) (cs : List Char) (b : Nat) (h : b ≠ 0) :
    sliceTo (c :: cs) b =
      if utf8Len c ≤ b then (sliceTo cs (b - utf8Len c)).map (c :: ·) else none := by
  conv_lhs => unfold sliceTo
  rw [if_neg h]

theorem sliceFrom_boundary (input : List Char) :
    ∀ j : Nat, sliceFrom input (byteLen (input.take j)) = some (input.drop j) := by
  induction input with
  | nil => intro j; simp [byteLen, sliceFrom]
  | cons c cs ih =>
    intro j
    cases j with
    | zero => simp [byteLen_nil, sliceFrom_zero]
    | succ j =>
      have hpos := utf8Len_pos c
      rw [List.take_succ_cons, byteLen_cons, List.drop_succ_cons]
      rw [sliceFrom_cons_pos _ _ _ (by omega), if_pos (by omega)]
      have h2 : utf8Len c + byteLen (cs.take j) - utf8Len c = byteLen (cs.take j) := by omega
      rw [h2, ih]

theorem sliceTo_boundary (cs : List Char) :
    ∀ m : Nat, sliceTo cs (byteLen (cs.take m)) = some (cs.take m) := by
  induction cs with
  | nil => intro m; simp [byteLen, sliceTo]
  | cons c cs ih =>
    intro m
    cases m with
    | zero => simp [byteLen_nil, sliceTo_zero]
    | succ m =>
      have hpos := utf8Len_pos c
      rw [List.take_succ_cons, byteLen_cons]
      rw [sliceTo_cons_pos _ _ _ (by omega), if_pos (by omega)]
      have h2 : utf8Len c + byteLen (cs.take m) - utf8Len c = byteLen (cs.take m) := by omega
      rw [h2, ih]
      rfl

theorem byteLen_take_le (input : List Char) {j k : Nat} (h : j ≤ k) :
    byteLen (input.take j) ≤ byteLen (input.take k) := by
  conv_rhs => rw [← List.take_append_drop j (input.take k)]
  rw [byteLen_append, List.take_take, Nat.min_eq_left h]
  omega

theorem byteSlice_boundary (input : List Char) {j k : Nat} (h : j ≤ k) :
    byteSlice input (byteLen (input.take j)) (byteLen (input.take k)) =
      some ((input.take k).drop j) := by
  unfold byteSlice
  rw [if_pos (byteLen_take_le input h), sliceFrom_boundary]
  have hdt : (input.drop j).take (k - j) = (input.take k).drop j := by
    rw [List.take_drop, Nat.add_sub_cancel' h]
  have hdec : byteLen (input.take k) =
      byteLen (input.take j) + byteLen ((input.drop j).take (k - j)) := by
    rw [hdt]
    conv_lhs => rw [← List.take_append_drop j (input.take k)]
    rw [byteLen_append, List.take_take, Nat.min_eq_left h]
  show sliceTo (input.drop j) (byteLen (input.take k) - byteLen (input.take j)) = _
  rw [hdec]
  have h2 : byteLen (input.take j) + byteLen ((input.drop j).take (k - j)) -
      byteLen (input.take j) = byteLen ((input.drop j).take (k - j)) := by omega
  rw [h2, sliceTo_boundary, hdt]

theorem byteLen_take_succ (input : List Char) {k : Nat} {c : Char}
    (h : input[k]? = some c) :
    byteLen (input.take (k + 1)) = byteLen (input.take k) + utf8Len c := by
  rw [List.take_succ, h, byteLen_append]
  simp [byteLen]

theorem renderTokens_append (ts : List Token) (t : Token) :
    renderTokens (ts ++ [t]) = renderTokens ts ++ t.render := by
  simp [renderTokens]

theorem render_token_builder (t : NumberType) (lex : List Char) :
    (t.token_builder lex).render = lex := by
  cases t <;> rfl

theorem byteLen_spaces {cs : List Char} (h : ∀ c ∈ cs, c = ' ') :
    byteLen cs = cs.length := by
  induction cs with
  | nil => rfl
  | cons c cs ih =>
    rw [byteLen_cons, List.length_cons, h c (List.mem_cons_self c cs),
      ih (fun d hd => h d (List.mem_cons_of_mem _ hd))]
    have h1 : utf8Len ' ' = 1 := rfl
    omega

theorem lt_length_of_getElem?_some {l : List Char} {k : Nat} {c : Char}
    (hc : l[k]? = some c) : k < l.length := by
  by_contra hk
  rw [List.getElem?_eq_none (by omega)] at hc
  exact Option.noConfusion hc

theorem take_succ_of_getElem? {l : List Char} {k : Nat} {c : Char}
    (hc : l[k]? = some c) : l.take (k + 1) = l.take k ++ [c] := by
  rw [List.take_succ, hc]
  rfl

theorem take_prefix_of_le {l : List Char} {j k : Nat} (h : j ≤ k) :
    l.take j ++ (l.take k).drop j = l.take k := by
  conv_rhs => rw [← List.take_append_drop j (l.take k)]
  rw [List.take_take, Nat.min_eq_left h]

/-- If `dispatch` succeeds at the character `input[k]`, the produced state
satisfies the invariant one character further. -/
theorem dispatch_inv (input : List Char) {k : Nat} {c : Char} (hc : input[k]? = some c)
    (s0 : State) (offset : Nat) (tokens : List Token)
    (hconcat : List.replicate offset ' ' ++ renderTokens tokens = input.take k) :
    ∀ {st : State} {toks : List Token},
      dispatch s0 (byteLen (input.take k)) c tokens = Except.ok (st, toks) →
      StateInv input (k + 1) st offset toks := by
  intro st toks h
  have htake1 : input.take (k + 1) = input.take k ++ [c] := take_succ_of_getElem? hc
  simp only [dispatch, match_first_char] at h
  split_ifs at h with h1 h2 h3 h4 h5 h6 h7 h8 <;>
    simp only [Except.ok.injEq, Prod.mk.injEq] at h
  · -- comment
    obtain ⟨hst, htoks⟩ := h
    subst hst; subst htoks
    exact ⟨k, by omega, rfl, hconcat⟩
  · -- string prefix letter
    obtain ⟨hst, htoks⟩ := h
    subst hst; subst htoks
    refine ⟨k, c, rfl, hc, ?_, hconcat⟩
    rcases h2 with h | h | h | h <;> exact utf8Len_one_of_toLower_ascii h (by decide)
  · -- zero
    obtain ⟨hst, htoks⟩ := h
    subst hst; subst htoks
    have hc0 : c = '0' := eq_of_toLower_eq_nonlower h3 (by decide)
    exact ⟨k, rfl, hc0 ▸ hc, hconcat⟩
  · -- whitespaces
    obtain ⟨hst, htoks⟩ := h
    subst hst; subst htoks
    have hcsp : c = ' ' := eq_of_toLower_eq_nonlower h4 (by decide)
    exact ⟨k, rfl, rfl, hcsp ▸ hc, hconcat⟩
  · -- colon
    obtain ⟨hst, htoks⟩ := h
    subst hst; subst htoks
    have hcc : c = ':' := eq_of_toLower_eq_nonlower h5 (by decide)
    show List.replicate offset ' ' ++ renderTokens (tokens ++ [Token.operator Operator.colon]) =
      input.take (k + 1)
    rw [renderTokens_append, htake1, ← List.append_assoc, hconcat, hcc]
    rfl
  · -- plus
    obtain ⟨hst, htoks⟩ := h
    subst hst; subst htoks
    have hcc : c = '+' := eq_of_toLower_eq_nonlower h6 (by decide)
    show List.replicate offset ' ' ++ renderTokens (tokens ++ [Token.operator Operator.plus]) =
      input.take (k + 1)
    rw [renderTokens_append, htake1, ← List.append_assoc, hconcat, hcc]
    rfl
  · -- decimal number
    obtain ⟨hst, htoks⟩ := h
    subst hst; subst htoks
    exact ⟨k, by omega, rfl, hconcat⟩
  · -- identifier
    obtain ⟨hst, htoks⟩ := h
    subst hst; subst htoks
    exact ⟨k, by omega, rfl, hconcat⟩

/-- If a token-ending arm runs at the character `input[k]`, it does not
panic, and on success the produced state satisfies the invariant. -/
theorem endToken_inv (input : List Char) {k j : Nat} {c : Char} (hc : input[k]? = some c)
    (hjk : j ≤ k) (build : List Char → Token)
    (hrender : ∀ lex, (build lex).render = lex)
    (s0 : State) (offset : Nat) (tokens : List Token)
    (hconcat : List.replicate offset ' ' ++ renderTokens tokens = input.take j) :
    ∃ q, endToken input build (byteLen (input.take j)) (byteLen (input.take k)) s0 c tokens =
        some q ∧
      ∀ {st : State} {toks : List Token}, q = Except.ok (st, toks) →
        StateInv input (k + 1) st offset toks := by
  unfold endToken
  rw [byteSlice_boundary input hjk]
  refine ⟨_, rfl, ?_⟩
  intro st toks h
  refine dispatch_inv input hc s0 offset _ ?_ h
  rw [renderTokens_append, hrender, ← List.append_assoc, hconcat, take_prefix_of_le hjk]

/-- Push the invariant through the `(state, tokens) ↦ (state, offset, tokens)`
plumbing of the scan loop. -/
theorem map_triple_inv (input : List Char) (k : Nat) (off0 : Nat)
    {q : Except Error (State × List Token)}
    (hq : ∀ {st : State} {toks : List Token}, q = Except.ok (st, toks) →
      StateInv input (k + 1) st off0 toks) :
    ∀ {st : State} {off : Nat} {toks : List Token},
      q.map (fun p => (p.1, off0, p.2)) = Except.ok (st, off, toks) →
      StateInv input (k + 1) st off toks := by
  intro st off toks h
  cases q with
  | error e => exact absurd h (by simp [Except.map])
  | ok p =>
    simp only [Except.map, Except.ok.injEq, Prod.mk.injEq] at h
    obtain ⟨h1, h2, h3⟩ := h
    subst h1; subst h2; subst h3
    exact hq rfl

/-- Specialised scan-step equations for the `Number` states (they hold by
iota reduction once the radix and separator sub-state are concrete). -/
theorem stepLine_hex_eq (input : List Char) (index : Nat) (c : Char)
    (startsAt offset : Nat) (tokens : List Token) :
    stepLine input index c (State.number NumberType.hex NumberState.normal startsAt)
        offset tokens =
      if isDigitRadix c NumberType.hex.radix then
        some (Except.ok (State.number NumberType.hex NumberState.normal startsAt, offset, tokens))
      else
        (endToken input NumberType.hex.token_builder startsAt index
          (State.number NumberType.hex NumberState.normal startsAt) c tokens).map
          (fun r => r.map fun p => (p.1, offset, p.2)) := rfl

theorem stepLine_oct_eq (input : List Char) (index : Nat) (c : Char)
    (startsAt offset : Nat) (tokens : List Token) :
    stepLine input index c (State.number NumberType.oct NumberState.normal startsAt)
        offset tokens =
      if isDigitRadix c NumberType.oct.radix then
        some (Except.ok (State.number NumberType.oct NumberState.normal startsAt, offset, tokens))
      else
        (endToken input NumberType.oct.token_builder startsAt index
          (State.number NumberType.oct NumberState.normal startsAt) c tokens).map
          (fun r => r.map fun p => (p.1, offset, p.2)) := rfl

theorem stepLine_bin_eq (input : List Char) (index : Nat) (c : Char)
    (startsAt offset : Nat) (tokens : List Token) :
    stepLine input index c (State.number NumberType.bin NumberState.normal startsAt)
        offset tokens =
      if isDigitRadix c NumberType.bin.radix then
        some (Except.ok (State.number NumberType.bin NumberState.normal startsAt, offset, tokens))
      else
        (endToken input NumberType.bin.token_builder startsAt index
          (State.number NumberType.bin NumberState.normal startsAt) c tokens).map
          (fun r => r.map fun p => (p.1, offset, p.2)) := rfl

theorem stepLine_dec_eq (input : List Char) (index : Nat) (c : Char) (ns : NumberState)
    (startsAt offset : Nat) (tokens : List Token) :
    stepLine input index c (State.number NumberType.dec ns startsAt) offset tokens =
      if is_numeric c then
        some (Except.ok (State.number NumberType.dec NumberState.normal startsAt, offset, tokens))
      else if c = '_' ∧ ns = NumberState.normal then
        some (Except.ok
          (State.number NumberType.dec NumberState.underscore startsAt, offset, tokens))
      else if ns = NumberState.normal then
        (endToken input Token.hexNumber startsAt index
          (State.number NumberType.dec ns startsAt) c tokens).map
          (fun r => r.map fun p => (p.1, offset, p.2))
      else
        some (Except.error
          (Error.invalidCharacter (State.number NumberType.dec ns startsAt) c)) := rfl

theorem stepLine_hexu_eq (input : List Char) (index : Nat) (c : Char)
    (startsAt offset : Nat) (tokens : List Token) :
    stepLine input index c (State.number NumberType.hex NumberState.underscore startsAt)
        offset tokens =
      some (Except.error
        (Error.invalidCharacter
          (State.number NumberType.hex NumberState.underscore startsAt) c)) := rfl

theorem stepLine_octu_eq (input : List Char) (index : Nat) (c : Char)
    (startsAt offset : Nat) (tokens : List Token) :
    stepLine input index c (State.number NumberType.oct NumberState.underscore startsAt)
        offset tokens =
      some (Except.error
        (Error.invalidCharacter
          (State.number NumberType.oct NumberState.underscore startsAt) c)) := rfl

theorem stepLine_binu_eq (input : List Char) (index : Nat) (c : Char)
    (startsAt offset : Nat) (tokens : List Token) :
    stepLine input index c (State.number NumberType.bin NumberState.underscore startsAt)
        offset tokens =
      some (Except.error
        (Error.invalidCharacter
          (State.number NumberType.bin NumberState.underscore startsAt) c)) := rfl

/-- The Hex/Oct/Bin `Number` arm preserves the invariant. -/
theorem stepLine_hob_inv (input : List Char) {k j : Nat} {c : Char}
    (hc : input[k]? = some c)
    (t : NumberType) (hjk : j ≤ k) (offset : Nat) (tokens : List Token)
    (hconcat : List.replicate offset ' ' ++ renderTokens tokens = input.take j)
    (hstep : stepLine input (byteLen (input.take k)) c
        (State.number t NumberState.normal (byteLen (input.take j))) offset tokens =
      if isDigitRadix c t.radix then
        some (Except.ok
          (State.number t NumberState.normal (byteLen (input.take j)), offset, tokens))
      else
        (endToken input t.token_builder (byteLen (input.take j)) (byteLen (input.take k))
          (State.number t NumberState.normal (byteLen (input.take j))) c tokens).map
          (fun r => r.map fun p => (p.1, offset, p.2))) :
    ∃ r, stepLine input (byteLen (input.take k)) c
        (State.number t NumberState.normal (byteLen (input.take j))) offset tokens = some r ∧
      ∀ {st : State} {off : Nat} {toks : List Token},
        r = Except.ok (st, off, toks) → StateInv input (k + 1) st off toks := by
  by_cases hdig : isDigitRadix c t.radix = true
  · rw [hstep, if_pos hdig]
    refine ⟨_, rfl, ?_⟩
    intro st off toks h
    simp only [Except.ok.injEq, Prod.mk.injEq] at h
    obtain ⟨h1, h2, h3⟩ := h
    subst h1; subst h2; subst h3
    exact ⟨j, by omega, rfl, hconcat⟩
  · obtain ⟨q, hq, hinv'⟩ := endToken_inv input hc hjk t.token_builder
      (render_token_builder t) (State.number t NumberState.normal (byteLen (input.take j)))
      offset tokens hconcat
    refine ⟨_, ?_, map_triple_inv input k offset hinv'⟩
    rw [hstep, if_neg hdig, hq]
    rfl

/-- One scan step at the character `input[k]` never panics, and on a
successful transition the invariant is preserved. -/
theorem stepLine_inv (input : List Char) {k : Nat} {c : Char} (hc : input[k]? = some c)
    (state : State) (offset : Nat) (tokens : List Token)
    (hinv : StateInv input k state offset tokens) :
    ∃ r, stepLine input (byteLen (input.take k)) c state offset tokens = some r ∧
      ∀ {st : State} {off : Nat} {toks : List Token},
        r = Except.ok (st, off, toks) → StateInv input (k + 1) st off toks := by
  have htake1 : input.take (k + 1) = input.take k ++ [c] := take_succ_of_getElem? hc
  cases state with
  | indent =>
    obtain ⟨hoff, htoks, hsp⟩ := hinv
    subst hoff; subst htoks
    by_cases hspc : c = ' '
    · refine ⟨_, by simp only [stepLine]; rw [if_pos hspc], ?_⟩
      intro st off toks h
      simp only [Except.ok.injEq, Prod.mk.injEq] at h
      obtain ⟨h1, h2, h3⟩ := h
      subst h1; subst h2; subst h3
      refine ⟨rfl, rfl, ?_⟩
      rw [htake1]
      intro x hx
      rcases List.mem_append.mp hx with hx | hx
      · exact hsp x hx
      · rw [List.mem_singleton.mp hx, hspc]
    · have hconcat : List.replicate (byteLen (input.take k)) ' ' ++ renderTokens [] =
          input.take k := by
        show List.replicate (byteLen (input.take k)) ' ' ++ [] = input.take k
        rw [List.append_nil, byteLen_spaces hsp]
        exact (List.eq_replicate_length.mpr hsp).symm
      refine ⟨_, by simp only [stepLine]; rw [if_neg hspc], ?_⟩
      exact map_triple_inv input k (byteLen (input.take k))
        (fun h => dispatch_inv input hc State.indent (byteLen (input.take k)) [] hconcat h)
  | whitespaces s =>
    obtain ⟨j, hjk, hs, hgetj, hconcat⟩ := hinv
    subst hs
    obtain ⟨q, hq, hinv'⟩ := endToken_inv input hc (by omega) Token.whitespaces
      (fun lex => rfl) (State.whitespaces (byteLen (input.take j))) offset tokens hconcat
    refine ⟨_, ?_, map_triple_inv input k offset hinv'⟩
    simp only [stepLine]
    rw [hq]
    rfl
  | zero =>
    obtain ⟨j, hjk, hget0, hconcat⟩ := hinv
    have hbk : byteLen (input.take k) = byteLen (input.take j) + 1 := by
      rw [← hjk, byteLen_take_succ input hget0]
      have h0 : utf8Len '0' = 1 := rfl
      omega
    have hne : byteLen (input.take k) ≠ 0 := by omega
    by_cases h1 : c = 'x' ∨ c = 'X'
    · refine ⟨_, by simp only [stepLine]; rw [if_pos h1, if_neg hne], ?_⟩
      intro st off toks h
      simp only [Except.ok.injEq, Prod.mk.injEq] at h
      obtain ⟨ha, hb, hc2⟩ := h
      subst ha; subst hb; subst hc2
      exact ⟨j, by omega, by omega, hconcat⟩
    · by_cases h2 : c = 'b' ∨ c = 'B'
      · refine ⟨_, by simp only [stepLine]; rw [if_neg h1, if_pos h2, if_neg hne], ?_⟩
        intro st off toks h
        simp only [Except.ok.injEq, Prod.mk.injEq] at h
        obtain ⟨ha, hb, hc2⟩ := h
        subst ha; subst hb; subst hc2
        exact ⟨j, by omega, by omega, hconcat⟩
      · by_cases h3 : c = 'o' ∨ c = 'O'
        · refine ⟨_, by simp only [stepLine]; rw [if_neg h1, if_neg h2, if_pos h3, if_neg hne], ?_⟩
          intro st off toks h
          simp only [Except.ok.injEq, Prod.mk.injEq] at h
          obtain ⟨ha, hb, hc2⟩ := h
          subst ha; subst hb; subst hc2
          exact ⟨j, by omega, by omega, hconcat⟩
        · by_cases h4 : c = '0'
          · have hstep : stepLine input (byteLen (input.take k)) c State.zero offset tokens =
                some (Except.ok
                  (State.zeroPadded (byteLen (input.take k) - 1), offset, tokens)) := by
              simp only [stepLine]
              rw [if_neg h1, if_neg h2, if_neg h3, if_pos h4, if_neg hne]
            refine ⟨_, hstep, ?_⟩
            intro st off toks h
            simp only [Except.ok.injEq, Prod.mk.injEq] at h
            obtain ⟨ha, hb, hc2⟩ := h
            subst ha; subst hb; subst hc2
            trivial
          · have hstep : stepLine input (byteLen (input.take k)) c State.zero offset tokens =
                some (Except.error (Error.invalidCharacter State.zero c)) := by
              simp only [stepLine]
              rw [if_neg h1, if_neg h2, if_neg h3, if_neg h4]
            refine ⟨_, hstep, ?_⟩
            intro st off toks h
            exact absurd h (by simp)
  | stringPrefixSingle =>
    obtain ⟨j, p, hjk, hgetp, hsz, hconcat⟩ := hinv
    have hbk : byteLen (input.take k) = byteLen (input.take j) + 1 := by
      rw [← hjk, byteLen_take_succ input hgetp, hsz]
    have hne : byteLen (input.take k) ≠ 0 := by omega
    have hm1 : byteLen (input.take k) - 1 = byteLen (input.take j) := by omega
    have hjlen : j < input.length := lt_length_of_getElem?_some hgetp
    have hgp : input[j] = p := by
      rw [List.getElem?_eq_getElem hjlen] at hgetp
      exact Option.some.inj hgetp
    have hdropj : input.drop j = p :: input.drop (j + 1) := by
      rw [List.drop_eq_getElem_cons hjlen, hgp]
    have hslice : sliceFrom input (byteLen (input.take k) - 1) =
        some (p :: input.drop (j + 1)) := by
      rw [hm1, sliceFrom_boundary, hdropj]
    by_cases h1 : ((toAsciiLowercase p = 'b' ∨ toAsciiLowercase p = 'f') ∧
        toAsciiLowercase c = 'r') ∨
        (toAsciiLowercase p = 'r' ∧ (toAsciiLowercase c = 'b' ∨ toAsciiLowercase c = 'f'))
    · refine ⟨_, by simp only [stepLine]; rw [if_neg hne, hslice]; simp only []; rw [if_pos h1], ?_⟩
      intro st off toks h
      simp only [Except.ok.injEq, Prod.mk.injEq] at h
      obtain ⟨ha, hb, hc2⟩ := h
      subst ha; subst hb; subst hc2
      trivial
    · by_cases h2 : toAsciiLowercase c = singleQuoteChar
      · have hstep : stepLine input (byteLen (input.take k)) c State.stringPrefixSingle
              offset tokens =
            some (Except.ok
              (State.string StringQuote.single (byteLen (input.take k) - 1), offset, tokens)) := by
          simp only [stepLine]
          rw [if_neg hne, hslice]
          simp only []
          rw [if_neg h1, if_pos h2]
        refine ⟨_, hstep, ?_⟩
        intro st off toks h
        simp only [Except.ok.injEq, Prod.mk.injEq] at h
        obtain ⟨ha, hb, hc2⟩ := h
        subst ha; subst hb; subst hc2
        trivial
      · by_cases h3 : toAsciiLowercase c = doubleQuoteChar
        · have hstep : stepLine input (byteLen (input.take k)) c State.stringPrefixSingle
                offset tokens =
              some (Except.ok
                (State.string StringQuote.double (byteLen (input.take k) - 1), offset,
                  tokens)) := by
            simp only [stepLine]
            rw [if_neg hne, hslice]
            simp only []
            rw [if_neg h1, if_neg h2, if_pos h3]
          refine ⟨_, hstep, ?_⟩
          intro st off toks h
          simp only [Except.ok.injEq, Prod.mk.injEq] at h
          obtain ⟨ha, hb, hc2⟩ := h
          subst ha; subst hb; subst hc2
          trivial
        · have hstep : stepLine input (byteLen (input.take k)) c State.stringPrefixSingle
                offset tokens =
              some (Except.ok
                (State.identifier (byteLen (input.take k) - 1), offset, tokens)) := by
            simp only [stepLine]
            rw [if_neg hne, hslice]
            simp only []
            rw [if_neg h1, if_neg h2, if_neg h3]
          refine ⟨_, hstep, ?_⟩
          intro st off toks h
          simp only [Except.ok.injEq, Prod.mk.injEq] at h
          obtain ⟨ha, hb, hc2⟩ := h
          subst ha; subst hb; subst hc2
          exact ⟨j, by omega, by omega, hconcat⟩
  | number t ns s =>
    obtain ⟨j, hjk, hs, hconcat⟩ := hinv
    subst hs
    cases ns with
    | normal =>
      cases t with
      | hex =>
        exact stepLine_hob_inv input hc NumberType.hex hjk offset tokens hconcat
          (stepLine_hex_eq input (byteLen (input.take k)) c (byteLen (input.take j))
            offset tokens)
      | oct =>
        exact stepLine_hob_inv input hc NumberType.oct hjk offset tokens hconcat
          (stepLine_oct_eq input (byteLen (input.take k)) c (byteLen (input.take j))
            offset tokens)
      | bin =>
        exact stepLine_hob_inv input hc NumberType.bin hjk offset tokens hconcat
          (stepLine_bin_eq input (byteLen (input.take k)) c (byteLen (input.take j))
            offset tokens)
      | dec =>
        by_cases hnum : is_numeric c = true
        · have hstep : stepLine input (byteLen (input.take k)) c
              (State.number NumberType.dec NumberState.normal (byteLen (input.take j)))
              offset tokens =
              some (Except.ok (State.number NumberType.dec NumberState.normal
                (byteLen (input.take j)), offset, tokens)) := by
            rw [stepLine_dec_eq, if_pos hnum]
          refine ⟨_, hstep, ?_⟩
          intro st off toks h
          simp only [Except.ok.injEq, Prod.mk.injEq] at h
          obtain ⟨ha, hb, hc2⟩ := h
          subst ha; subst hb; subst hc2
          exact ⟨j, by omega, rfl, hconcat⟩
        · by_cases hund : c = '_'
          · have hcu : c = '_' ∧ NumberState.normal = NumberState.normal := ⟨hund, rfl⟩
            have hstep : stepLine input (byteLen (input.take k)) c
                (State.number NumberType.dec NumberState.normal (byteLen (input.take j)))
                offset tokens =
                some (Except.ok (State.number NumberType.dec NumberState.underscore
                  (byteLen (input.take j)), offset, tokens)) := by
              rw [stepLine_dec_eq, if_neg hnum, if_pos hcu]
            refine ⟨_, hstep, ?_⟩
            intro st off toks h
            simp only [Except.ok.injEq, Prod.mk.injEq] at h
            obtain ⟨ha, hb, hc2⟩ := h
            subst ha; subst hb; subst hc2
            exact ⟨j, by omega, rfl, hconcat⟩
          · have hcu : ¬(c = '_' ∧ NumberState.normal = NumberState.normal) := by
              intro hx; exact hund hx.1
            obtain ⟨q, hq, hinv'⟩ := endToken_inv input hc hjk Token.hexNumber
              (fun lex => rfl)
              (State.number NumberType.dec NumberState.normal (byteLen (input.take j)))
              offset tokens hconcat
            refine ⟨_, ?_, map_triple_inv input k offset hinv'⟩
            rw [stepLine_dec_eq, if_neg hnum, if_neg hcu, if_pos rfl, hq]
            rfl
    | underscore =>
      cases t with
      | dec =>
        by_cases hnum : is_numeric c = true
        · have hstep : stepLine input (byteLen (input.take k)) c
              (State.number NumberType.dec NumberState.underscore (byteLen (input.take j)))
              offset tokens =
              some (Except.ok (State.number NumberType.dec NumberState.normal
                (byteLen (input.take j)), offset, tokens)) := by
            rw [stepLine_dec_eq, if_pos hnum]
          refine ⟨_, hstep, ?_⟩
          intro st off toks h
          simp only [Except.ok.injEq, Prod.mk.injEq] at h
          obtain ⟨ha, hb, hc2⟩ := h
          subst ha; subst hb; subst hc2
          exact ⟨j, by omega, rfl, hconcat⟩
        · have hcu : ¬(c = '_' ∧ NumberState.underscore = NumberState.normal) := by
            intro hx; exact absurd hx.2 (by simp)
          have hns : ¬(NumberState.underscore = NumberState.normal) := by simp
          have hstep : stepLine input (byteLen (input.take k)) c
              (State.number NumberType.dec NumberState.underscore (byteLen (input.take j)))
              offset tokens =
              some (Except.error (Error.invalidCharacter
                (State.number NumberType.dec NumberState.underscore
                  (byteLen (input.take j))) c)) := by
            rw [stepLine_dec_eq, if_neg hnum, if_neg hcu, if_neg hns]
          refine ⟨_, hstep, ?_⟩
          intro st off toks h
          exact absurd h (by simp)
      | hex =>
        refine ⟨_, stepLine_hexu_eq input (byteLen (input.take k)) c
          (byteLen (input.take j)) offset tokens, ?_⟩
        intro st off toks h
        exact absurd h (by simp)
      | oct =>
        refine ⟨_, stepLine_octu_eq input (byteLen (input.take k)) c
          (byteLen (input.take j)) offset tokens, ?_⟩
        intro st off toks h
        exact absurd h (by simp)
      | bin =>
        refine ⟨_, stepLine_binu_eq input (byteLen (input.take k)) c
          (byteLen (input.take j)) offset tokens, ?_⟩
        intro st off toks h
        exact absurd h (by simp)
  | identifier s =>
    obtain ⟨j, hjk, hs, hconcat⟩ := hinv
    subst hs
    by_cases hcont : is_xid_continue c = true
    · refine ⟨_, by simp only [stepLine]; rw [if_pos hcont], ?_⟩
      intro st off toks h
      simp only [Except.ok.injEq, Prod.mk.injEq] at h
      obtain ⟨ha, hb, hc2⟩ := h
      subst ha; subst hb; subst hc2
      exact ⟨j, by omega, rfl, hconcat⟩
    · obtain ⟨q, hq, hinv'⟩ := endToken_inv input hc hjk Token.identifier
        (fun lex => rfl) (State.identifier (byteLen (input.take j))) offset tokens hconcat
      refine ⟨_, ?_, map_triple_inv input k offset hinv'⟩
      simp only [stepLine]
      rw [if_neg hcont, hq]
      rfl
  | empty =>
    refine ⟨_, rfl, ?_⟩
    exact map_triple_inv input k offset
      (fun h => dispatch_inv input hc State.empty offset tokens hinv h)
  | comment s =>
    obtain ⟨j, hjk, hs, hconcat⟩ := hinv
    refine ⟨_, rfl, ?_⟩
    intro st off toks h
    simp only [Except.ok.injEq, Prod.mk.injEq] at h
    obtain ⟨ha, hb, hc2⟩ := h
    subst ha; subst hb; subst hc2
    exact ⟨j, by omega, hs, hconcat⟩
  | zeroPadded s =>
    refine ⟨_, rfl, ?_⟩
    intro st off toks h
    exact absurd h (by simp)
  | stringPrefixDouble =>
    refine ⟨_, rfl, ?_⟩
    intro st off toks h
    exact absurd h (by simp)
  | string q s =>
    refine ⟨_, rfl, ?_⟩
    intro st off toks h
    exact absurd h (by simp)

/-- The scan loop, started in an invariant-satisfying configuration,
never panics; when it succeeds, the rendered result reproduces the input
line, unless the line ends with a space (trailing spaces are consumed by
the `Indent`/`Whitespaces` states without being re-emitted). -/
theorem runFrom_sound (input : List Char) :
    ∀ (rest : List Char) (k : Nat), input.drop k = rest → k ≤ input.length →
    ∀ (state : State) (offset : Nat) (tokens : List Token),
      StateInv input k state offset tokens →
      ∃ r, runFrom input rest (byteLen (input.take k)) state offset tokens = some r ∧
        ∀ res : LineTokenizer, r = Except.ok res →
          List.replicate res.offset ' ' ++ renderTokens res.tokens = input ∨
            input.getLast? = some ' ' := by
  intro rest
  induction rest with
  | nil =>
    intro k hdrop hlen state offset tokens hinv
    have hk : input.length ≤ k := by
      by_contra hk
      have : input.drop k ≠ [] := by
        intro hx
        rw [List.drop_eq_nil_iff] at hx
        omega
      exact this hdrop
    have htk : input.take k = input := List.take_of_length_le hk
    cases state with
    | indent =>
      obtain ⟨h0, ht, hsp⟩ := hinv
      subst h0; subst ht
      refine ⟨_, rfl, ?_⟩
      intro res hres
      simp only [Except.ok.injEq] at hres
      subst hres
      rw [htk] at hsp
      cases input with
      | nil => left; rfl
      | cons a as =>
        right
        rw [List.getLast?_eq_getElem?]
        have hlt : (a :: as).length - 1 < (a :: as).length := by simp
        rw [List.getElem?_eq_getElem hlt]
        rw [hsp _ (List.getElem_mem hlt)]
    | whitespaces s =>
      obtain ⟨j, hjk, hs, hgetj, hconcat⟩ := hinv
      refine ⟨_, rfl, ?_⟩
      intro res hres
      right
      rw [List.getLast?_eq_getElem?]
      have hj : j = input.length - 1 := by omega
      rw [← hj]
      exact hgetj
    | empty =>
      refine ⟨_, rfl, ?_⟩
      intro res hres
      simp only [Except.ok.injEq] at hres
      subst hres
      left
      rw [hinv, htk]
    | comment s =>
      obtain ⟨j, hjk, hs, hconcat⟩ := hinv
      subst hs
      have hfin : finishLine input (State.comment (byteLen (input.take j))) offset tokens =
          some (Except.ok ⟨offset, tokens ++ [Token.comment (input.drop j)]⟩) := by
        simp only [finishLine]
        rw [sliceFrom_boundary]
        rfl
      refine ⟨_, hfin, ?_⟩
      intro res hres
      simp only [Except.ok.injEq] at hres
      subst hres
      left
      show List.replicate offset ' ' ++ renderTokens (tokens ++ [Token.comment (input.drop j)]) =
        input
      rw [renderTokens_append, ← List.append_assoc, hconcat]
      show input.take j ++ Token.render (Token.comment (input.drop j)) = input
      rw [Token.render, List.take_append_drop]
    | identifier s =>
      obtain ⟨j, hjk, hs, hconcat⟩ := hinv
      subst hs
      have hfin : finishLine input (State.identifier (byteLen (input.take j))) offset tokens =
          some (Except.ok ⟨offset, tokens ++ [Token.identifier (input.drop j)]⟩) := by
        simp only [finishLine]
        rw [sliceFrom_boundary]
        rfl
      refine ⟨_, hfin, ?_⟩
      intro res hres
      simp only [Except.ok.injEq] at hres
      subst hres
      left
      show List.replicate offset ' ' ++
        renderTokens (tokens ++ [Token.identifier (input.drop j)]) = input
      rw [renderTokens_append, ← List.append_assoc, hconcat]
      show input.take j ++ Token.render (Token.identifier (input.drop j)) = input
      rw [Token.render, List.take_append_drop]
    | number t ns s =>
      obtain ⟨j, hjk, hs, hconcat⟩ := hinv
      subst hs
      cases ns with
      | normal =>
        have hfin : finishLine input
            (State.number t NumberState.normal (byteLen (input.take j))) offset tokens =
            some (Except.ok ⟨offset, tokens ++ [t.token_builder (input.drop j)]⟩) := by
          cases t <;> (simp only [finishLine]; rw [sliceFrom_boundary]; rfl)
        refine ⟨_, hfin, ?_⟩
        intro res hres
        simp only [Except.ok.injEq] at hres
        subst hres
        left
        show List.replicate offset ' ' ++
          renderTokens (tokens ++ [t.token_builder (input.drop j)]) = input
        rw [renderTokens_append, ← List.append_assoc, hconcat, render_token_builder,
          List.take_append_drop]
      | underscore =>
        have hfin : finishLine input
            (State.number t NumberState.underscore (byteLen (input.take j))) offset tokens =
            some (Except.error (Error.invalidTerminalState
              (State.number t NumberState.underscore (byteLen (input.take j))))) := by
          cases t <;> rfl
        refine ⟨_, hfin, ?_⟩
        intro res hres
        exact absurd hres (by simp)
    | zero =>
      refine ⟨_, rfl, ?_⟩
      intro res hres
      exact absurd hres (by simp)
    | zeroPadded s =>
      refine ⟨_, rfl, ?_⟩
      intro res hres
      exact absurd hres (by simp)
    | stringPrefixSingle =>
      refine ⟨_, rfl, ?_⟩
      intro res hres
      exact absurd hres (by simp)
    | stringPrefixDouble =>
      refine ⟨_, rfl, ?_⟩
      intro res hres
      exact absurd hres (by simp)
    | string q s =>
      refine ⟨_, rfl, ?_⟩
      intro res hres
      exact absurd hres (by simp)
  | cons c rest' ih =>
    intro k hdrop hlen state offset tokens hinv
    have hget : input[k]? = some c := by
      have hgd := List.getElem?_drop input k 0
      rw [hdrop] at hgd
      simpa using hgd.symm
    have hdrop' : input.drop (k + 1) = rest' := by
      have h1 : input.drop (k + 1) = List.drop 1 (input.drop k) := by
        rw [List.drop_drop]
      rw [h1, hdrop]
      rfl
    have hlen' : k + 1 ≤ input.length := lt_length_of_getElem?_some hget
    obtain ⟨r1, hr1, hinv'⟩ := stepLine_inv input hget state offset tokens hinv
    cases r1 with
    | error e =>
      refine ⟨Except.error e, ?_, ?_⟩
      · simp only [runFrom]
        rw [hr1]
      · intro res hres
        exact absurd hres (by simp)
    | ok p =>
      obtain ⟨st, off, toks⟩ := p
      have hnext : byteLen (input.take k) + utf8Len c = byteLen (input.take (k + 1)) := by
        rw [byteLen_take_succ input hget]
      obtain ⟨r, hr, hprop⟩ := ih (k + 1) hdrop' hlen' st off toks (hinv' rfl)
      refine ⟨r, ?_, hprop⟩
      simp only [runFrom]
      rw [hr1]
      show runFrom input rest' (byteLen (input.take k) + utf8Len c) st off toks = some r
      rw [hnext]
      exact hr

/-- `from_str` never panics; when it succeeds the rendered result
reproduces the line unless the line ends with a space. -/
theorem fromStr_sound (input : List Char) :
    ∃ r, fromStr input = some r ∧
      ∀ res : LineTokenizer, r = Except.ok res →
        List.replicate res.offset ' ' ++ renderTokens res.tokens = input ∨
          input.getLast? = some ' ' := by
  have hinv : StateInv input 0 State.indent 0 [] := by
    refine ⟨rfl, rfl, ?_⟩
    intro c hcmem
    simp at hcmem
  exact runFrom_sound input input 0 rfl (by omega) State.indent 0 [] hinv

/-! ## Dispatch outcomes for specific character classes -/

/-- A nonzero ASCII decimal digit starts a `Dec` number literal. -/
theorem match_first_char_digit (index : Nat) {c : Char}
    (h1 : 49 ≤ c.toNat) (h2 : c.toNat ≤ 57) :
    match_first_char index c =
      (some (State.number NumberType.dec NumberState.normal index), none) := by
  have hlc : toAsciiLowercase c = c := toLower_eq_self (by omega)
  have v1 : ('#' : Char).toNat = 35 := rfl
  have v2 : ('b' : Char).toNat = 98 := rfl
  have v3 : ('f' : Char).toNat = 102 := rfl
  have v4 : ('r' : Char).toNat = 114 := rfl
  have v5 : ('u' : Char).toNat = 117 := rfl
  have v6 : ('0' : Char).toNat = 48 := rfl
  have v7 : (' ' : Char).toNat = 32 := rfl
  have v8 : (':' : Char).toNat = 58 := rfl
  have v9 : ('+' : Char).toNat = 43 := rfl
  simp only [match_first_char]
  rw [hlc]
  rw [if_neg (show c ≠ '#' by intro h; rw [h] at h1; omega)]
  rw [if_neg (show ¬(c = 'b' ∨ c = 'f' ∨ c = 'r' ∨ c = 'u') by
    rintro (rfl | rfl | rfl | rfl) <;> omega)]
  rw [if_neg (show c ≠ '0' by intro h; rw [h] at h1; omega)]
  rw [if_neg (show c ≠ ' ' by intro h; rw [h] at h1; omega)]
  rw [if_neg (show c ≠ ':' by intro h; rw [h] at h2; omega)]
  rw [if_neg (show c ≠ '+' by intro h; rw [h] at h1; omega)]
  rw [if_pos (show is_numeric c = true by
    simp only [is_numeric, decide_eq_true_eq]; omega)]

/-- An ASCII letter that is not one of the string-prefix letters starts
an identifier. -/
theorem match_first_char_id (index : Nat) {c : Char} (hstart : is_xid_start c = true)
    (hnp : ¬(toAsciiLowercase c = 'b' ∨ toAsciiLowercase c = 'f' ∨
      toAsciiLowercase c = 'r' ∨ toAsciiLowercase c = 'u')) :
    match_first_char index c = (some (State.identifier index), none) := by
  have hs : (65 ≤ c.toNat ∧ c.toNat ≤ 90) ∨ (97 ≤ c.toNat ∧ c.toNat ≤ 122) := by
    simpa [is_xid_start, decide_eq_true_eq] using hstart
  have hlc : 97 ≤ (toAsciiLowercase c).toNat ∧ (toAsciiLowercase c).toNat ≤ 122 := by
    rcases toLower_spec c with ⟨hnu, h0⟩ | ⟨h1, h2, h3⟩
    · rw [h0]
      rcases hs with ⟨h1, h2⟩ | ⟨h1, h2⟩
      · exact absurd ⟨h1, h2⟩ hnu
      · exact ⟨h1, h2⟩
    · omega
  have v1 : ('#' : Char).toNat = 35 := rfl
  have v6 : ('0' : Char).toNat = 48 := rfl
  have v7 : (' ' : Char).toNat = 32 := rfl
  have v8 : (':' : Char).toNat = 58 := rfl
  have v9 : ('+' : Char).toNat = 43 := rfl
  simp only [match_first_char]
  rw [if_neg (show toAsciiLowercase c ≠ '#' from
    char_ne_of_toNat_ne (by omega))]
  rw [if_neg hnp]
  rw [if_neg (show toAsciiLowercase c ≠ '0' from char_ne_of_toNat_ne (by omega))]
  rw [if_neg (show toAsciiLowercase c ≠ ' ' from char_ne_of_toNat_ne (by omega))]
  rw [if_neg (show toAsciiLowercase c ≠ ':' from char_ne_of_toNat_ne (by omega))]
  rw [if_neg (show toAsciiLowercase c ≠ '+' from char_ne_of_toNat_ne (by omega))]
  rw [if_neg (show ¬ is_numeric (toAsciiLowercase c) = true by
    simp only [is_numeric, decide_eq_true_eq]; omega)]
  rw [if_pos (show is_xid_start (toAsciiLowercase c) = true by
    simp only [is_xid_start, decide_eq_true_eq]; right; omega)]

/-! ## Straight-line runs of the scan loop -/

/-- In the `Dec`/`Normal` number state, a run of numeric characters is
consumed without emitting anything, and the end of the line resolves the
literal with the `Dec` builder. -/
theorem runFrom_dec_digits (input : List Char) :
    ∀ (rest : List Char), (∀ d ∈ rest, is_numeric d = true) →
    ∀ (pos s offset : Nat) (tokens : List Token),
      runFrom input rest pos (State.number NumberType.dec NumberState.normal s)
          offset tokens =
        (sliceFrom input s).map fun lex =>
          Except.ok ⟨offset, tokens ++ [Token.decNumber lex]⟩ := by
  intro rest
  induction rest with
  | nil => intro _ pos s offset tokens; rfl
  | cons d rest ih =>
    intro hall pos s offset tokens
    have hd : is_numeric d = true := hall d (List.mem_cons_self d rest)
    simp only [runFrom]
    rw [stepLine_dec_eq, if_pos hd]
    exact ih (fun x hx => hall x (List.mem_cons_of_mem _ hx)) _ _ _ _

/-- In the `Identifier` state, a run of continuing characters is consumed
without emitting anything, and the end of the line emits the identifier. -/
theorem runFrom_identifier_run (input : List Char) :
    ∀ (rest : List Char), (∀ d ∈ rest, is_xid_continue d = true) →
    ∀ (pos s offset : Nat) (tokens : List Token),
      runFrom input rest pos (State.identifier s) offset tokens =
        (sliceFrom input s).map fun lex =>
          Except.ok ⟨offset, tokens ++ [Token.identifier lex]⟩ := by
  intro rest
  induction rest with
  | nil => intro _ pos s offset tokens; rfl
  | cons d rest ih =>
    intro hall pos s offset tokens
    have hd : is_xid_continue d = true := hall d (List.mem_cons_self d rest)
    simp only [runFrom]
    have hstep : stepLine input pos d (State.identifier s) offset tokens =
        some (Except.ok (State.identifier s, offset, tokens)) := by
      simp only [stepLine]
      rw [if_pos hd]
    rw [hstep]
    exact ih (fun x hx => hall x (List.mem_cons_of_mem _ hx)) _ _ _ _

/-- The `Comment` state consumes every remaining character and emits one
Comment token spanning to the end of the line. -/
theorem runFrom_comment (input : List Char) :
    ∀ (rest : List Char) (pos s offset : Nat) (tokens : List Token),
      runFrom input rest pos (State.comment s) offset tokens =
        (sliceFrom input s).map fun lex =>
          Except.ok ⟨offset, tokens ++ [Token.comment lex]⟩ := by
  intro rest
  induction rest with
  | nil => intro pos s offset tokens; rfl
  | cons d rest ih =>
    intro pos s offset tokens
    simp only [runFrom]
    rw [show stepLine input pos d (State.comment s) offset tokens =
      some (Except.ok (State.comment s, offset, tokens)) from rfl]
    exact ih _ _ _ _

/-- The `Indent` state consumes a run of leading spaces. -/
theorem runFrom_indent_spaces (input : List Char) :
    ∀ (n : Nat) (rest : List Char) (pos : Nat),
      runFrom input (List.replicate n ' ' ++ rest) pos State.indent 0 [] =
        runFrom input rest (pos + n) State.indent 0 [] := by
  intro n
  induction n with
  | zero => intro rest pos; rw [List.replicate_zero, List.nil_append, Nat.add_zero]
  | succ n ih =>
    intro rest pos
    rw [List.replicate_succ, List.cons_append]
    simp only [runFrom]
    rw [show stepLine input pos ' ' State.indent 0 [] =
      some (Except.ok (State.indent, 0, [])) from rfl]
    show runFrom input (List.replicate n ' ' ++ rest) (pos + utf8Len ' ')
      State.indent 0 [] = _
    rw [show utf8Len ' ' = 1 from rfl, ih]
    congr 1
    omega

/-- An identifier span followed by a colon: the colon ends the identifier,
emits it together with the Colon operator, and the line ends cleanly. -/
theorem runFrom_identifier_colon (input : List Char) (j : Nat) :
    ∀ (cs : List Char) (k : Nat), k ≤ input.length → input.drop k = cs ++ [':'] →
      (∀ d ∈ cs, is_xid_continue d = true) → j ≤ k →
    ∀ (offset : Nat) (tokens : List Token),
      runFrom input (cs ++ [':']) (byteLen (input.take k))
          (State.identifier (byteLen (input.take j))) offset tokens =
        some (Except.ok ⟨offset, tokens ++
          [Token.identifier ((input.take (k + cs.length)).drop j),
            Token.operator Operator.colon]⟩) := by
  intro cs
  induction cs with
  | nil =>
    intro k hk hdrop hall hjk offset tokens
    have hget : input[k]? = some ':' := by
      have hgd := List.getElem?_drop input k 0
      rw [hdrop] at hgd
      simpa using hgd.symm
    have hnc : ¬ is_xid_continue ':' = true := by decide
    have hmfc : match_first_char (byteLen (input.take k)) ':' =
        (some State.empty, some (Token.operator Operator.colon)) := rfl
    have hstep : stepLine input (byteLen (input.take k)) ':'
        (State.identifier (byteLen (input.take j))) offset tokens =
        some (Except.ok (State.empty, offset,
          (tokens ++ [Token.identifier ((input.take k).drop j)]) ++
            [Token.operator Operator.colon])) := by
      simp only [stepLine]
      rw [if_neg hnc]
      unfold endToken
      rw [byteSlice_boundary input hjk]
      simp only [dispatch]
      rw [hmfc]
      rfl
    simp only [List.nil_append, runFrom]
    rw [hstep]
    show some (Except.ok (⟨offset,
      (tokens ++ [Token.identifier ((input.take k).drop j)]) ++
        [Token.operator Operator.colon]⟩ : LineTokenizer)) =
      some (Except.ok ⟨offset, tokens ++
        [Token.identifier ((input.take (k + ([] : List Char).length)).drop j),
          Token.operator Operator.colon]⟩)
    rw [List.append_assoc]
    rfl
  | cons d cs' ihc =>
    intro k hk hdrop hall hjk offset tokens
    have hget : input[k]? = some d := by
      have hgd := List.getElem?_drop input k 0
      rw [hdrop] at hgd
      simpa using hgd.symm
    have hd : is_xid_continue d = true := hall d (List.mem_cons_self d cs')
    have hdrop' : input.drop (k + 1) = cs' ++ [':'] := by
      have h1 : input.drop (k + 1) = List.drop 1 (input.drop k) := by
        rw [List.drop_drop]
      rw [h1, hdrop]
      rfl
    have hlen' : k + 1 ≤ input.length := lt_length_of_getElem?_some hget
    have hstep : stepLine input (byteLen (input.take k)) d
        (State.identifier (byteLen (input.take j))) offset tokens =
        some (Except.ok (State.identifier (byteLen (input.take j)), offset, tokens)) := by
      simp only [stepLine]
      rw [if_pos hd]
    rw [List.cons_append]
    simp only [runFrom]
    rw [hstep]
    show runFrom input (cs' ++ [':']) (byteLen (input.take k) + utf8Len d)
      (State.identifier (byteLen (input.take j))) offset tokens = _
    rw [show byteLen (input.take k) + utf8Len d = byteLen (input.take (k + 1)) from
      (byteLen_take_succ input hget).symm]
    rw [ihc (k + 1) hlen' hdrop' (fun x hx => hall x (List.mem_cons_of_mem _ hx))
      (by omega) offset tokens]
    rw [show k + 1 + cs'.length = k + (d :: cs').length from by
      rw [List.length_cons]; omega]

/-! ## Sub-lemmas for the underscore-separator claim -/

theorem utf8Len_of_isDigitRadix {d : Char} {r : Nat} (h : isDigitRadix d r = true) :
    utf8Len d = 1 := by
  unfold isDigitRadix at h
  split_ifs at h with h1 h2 h3
  · exact utf8Len_of_lt (by omega)
  · exact utf8Len_of_lt (by omega)
  · exact utf8Len_of_lt (by omega)

theorem byteLen_digits {ds : List Char} {r : Nat}
    (h : ∀ d ∈ ds, isDigitRadix d r = true) : byteLen ds = ds.length := by
  induction ds with
  | nil => rfl
  | cons d ds ih =>
    rw [byteLen_cons, List.length_cons,
      utf8Len_of_isDigitRadix (h d (List.mem_cons_self d ds)),
      ih (fun x hx => h x (List.mem_cons_of_mem _ hx))]
    omega

/-- In the `Dec`/`Normal` number state, a run of numeric characters is
consumed without emitting anything, moving the position past the run. -/
theorem runFrom_dec_digits_mid (input : List Char) :
    ∀ (ds rest : List Char), (∀ d ∈ ds, is_numeric d = true) →
    ∀ (pos s offset : Nat) (tokens : List Token),
      runFrom input (ds ++ rest) pos (State.number NumberType.dec NumberState.normal s)
          offset tokens =
        runFrom input rest (pos + byteLen ds)
          (State.number NumberType.dec NumberState.normal s) offset tokens := by
  intro ds
  induction ds with
  | nil =>
    intro rest _ pos s offset tokens
    rw [List.nil_append, byteLen_nil, Nat.add_zero]
  | cons d ds ih =>
    intro rest hall pos s offset tokens
    have hd : is_numeric d = true := hall d (List.mem_cons_self d ds)
    rw [show pos + byteLen (d :: ds) = pos + utf8Len d + byteLen ds from by
      rw [byteLen_cons]; omega]
    rw [List.cons_append]
    simp only [runFrom]
    rw [stepLine_dec_eq, if_pos hd]
    exact ih rest (fun x hx => hall x (List.mem_cons_of_mem _ hx)) _ _ _ _

/-- In a Hex/Oct/Bin `Normal` number state, a run of radix-valid digits
is consumed without emitting anything. -/
theorem runFrom_hob_digits_mid (input : List Char) (t : NumberType)
    (htob : t = NumberType.hex ∨ t = NumberType.oct ∨ t = NumberType.bin) :
    ∀ (ds rest : List Char), (∀ d ∈ ds, isDigitRadix d t.radix = true) →
    ∀ (pos s offset : Nat) (tokens : List Token),
      runFrom input (ds ++ rest) pos (State.number t NumberState.normal s) offset tokens =
        runFrom input rest (pos + byteLen ds) (State.number t NumberState.normal s)
          offset tokens := by
  intro ds
  induction ds with
  | nil =>
    intro rest _ pos s offset tokens
    rw [List.nil_append, byteLen_nil, Nat.add_zero]
  | cons d ds ih =>
    intro rest hall pos s offset tokens
    have hd : isDigitRadix d t.radix = true := hall d (List.mem_cons_self d ds)
    rw [show pos + byteLen (d :: ds) = pos + utf8Len d + byteLen ds from by
      rw [byteLen_cons]; omega]
    rw [List.cons_append]
    simp only [runFrom]
    have hstep : stepLine input pos d (State.number t NumberState.normal s) offset tokens =
        some (Except.ok (State.number t NumberState.normal s, offset, tokens)) := by
      rcases htob with rfl | rfl | rfl
      · rw [stepLine_hex_eq, if_pos hd]
      · rw [stepLine_oct_eq, if_pos hd]
      · rw [stepLine_bin_eq, if_pos hd]
    rw [hstep]
    exact ih rest (fun x hx => hall x (List.mem_cons_of_mem _ hx)) _ _ _ _

theorem c4_dec_sep (a : Char) (ds1 : List Char) (b : Char) (ds2 : List Char)
    (ha1 : 49 ≤ a.toNat) (ha2 : a.toNat ≤ 57)
    (h1 : ∀ d ∈ ds1, is_numeric d = true) (hb : is_numeric b = true)
    (h2 : ∀ d ∈ ds2, is_numeric d = true) :
    fromStr (a :: ds1 ++ '_' :: b :: ds2) =
      some (Except.ok ⟨0, [Token.decNumber (a :: ds1 ++ '_' :: b :: ds2)]⟩) := by
  have hcsp : a ≠ ' ' := by
    have v : (' ' : Char).toNat = 32 := rfl
    intro h; rw [h] at ha1; omega
  have hstep1 : stepLine (a :: ds1 ++ '_' :: b :: ds2) 0 a State.indent 0 [] =
      some (Except.ok (State.number NumberType.dec NumberState.normal 0, 0, [])) := by
    simp only [stepLine]
    rw [if_neg hcsp]
    simp only [dispatch]
    rw [match_first_char_digit 0 ha1 ha2]
    rfl
  show runFrom (a :: ds1 ++ '_' :: b :: ds2) (a :: ds1 ++ '_' :: b :: ds2) 0
    State.indent 0 [] = _
  simp only [runFrom]
  rw [hstep1]
  show runFrom (a :: ds1 ++ '_' :: b :: ds2) (ds1 ++ '_' :: b :: ds2) (0 + utf8Len a)
    (State.number NumberType.dec NumberState.normal 0) 0 [] = _
  rw [runFrom_dec_digits_mid (a :: ds1 ++ '_' :: b :: ds2) ds1 ('_' :: b :: ds2) h1
    (0 + utf8Len a) 0 0 []]
  simp only [runFrom]
  rw [stepLine_dec_eq,
    if_neg (show ¬ is_numeric '_' = true by decide),
    if_pos (show ('_' : Char) = '_' ∧ NumberState.normal = NumberState.normal from ⟨rfl, rfl⟩)]
  show runFrom (a :: ds1 ++ '_' :: b :: ds2) (b :: ds2)
    (0 + utf8Len a + byteLen ds1 + utf8Len '_')
    (State.number NumberType.dec NumberState.underscore 0) 0 [] = _
  simp only [runFrom]
  rw [stepLine_dec_eq, if_pos hb]
  show runFrom (a :: ds1 ++ '_' :: b :: ds2) ds2
    (0 + utf8Len a + byteLen ds1 + utf8Len '_' + utf8Len b)
    (State.number NumberType.dec NumberState.normal 0) 0 [] = _
  rw [runFrom_dec_digits (a :: ds1 ++ '_' :: b :: ds2) ds2 h2
    (0 + utf8Len a + byteLen ds1 + utf8Len '_' + utf8Len b) 0 0 []]
  rfl

theorem c4_dec_trailing (a : Char) (ds1 : List Char)
    (ha1 : 49 ≤ a.toNat) (ha2 : a.toNat ≤ 57)
    (h1 : ∀ d ∈ ds1, is_numeric d = true) :
    fromStr (a :: ds1 ++ ['_']) = some (Except.error (Error.invalidTerminalState
      (State.number NumberType.dec NumberState.underscore 0))) := by
  have hcsp : a ≠ ' ' := by
    have v : (' ' : Char).toNat = 32 := rfl
    intro h; rw [h] at ha1; omega
  have hstep1 : stepLine (a :: ds1 ++ ['_']) 0 a State.indent 0 [] =
      some (Except.ok (State.number NumberType.dec NumberState.normal 0, 0, [])) := by
    simp only [stepLine]
    rw [if_neg hcsp]
    simp only [dispatch]
    rw [match_first_char_digit 0 ha1 ha2]
    rfl
  show runFrom (a :: ds1 ++ ['_']) (a :: ds1 ++ ['_']) 0 State.indent 0 [] = _
  simp only [runFrom]
  rw [hstep1]
  show runFrom (a :: ds1 ++ ['_']) (ds1 ++ ['_']) (0 + utf8Len a)
    (State.number NumberType.dec NumberState.normal 0) 0 [] = _
  rw [runFrom_dec_digits_mid (a :: ds1 ++ ['_']) ds1 ['_'] h1 (0 + utf8Len a) 0 0 []]
  simp only [runFrom]
  rw [stepLine_dec_eq,
    if_neg (show ¬ is_numeric '_' = true by decide),
    if_pos (show ('_' : Char) = '_' ∧ NumberState.normal = NumberState.normal from ⟨rfl, rfl⟩)]
  rfl

theorem c4_dec_doubled (a : Char) (ds1 : List Char) (rest : List Char)
    (ha1 : 49 ≤ a.toNat) (ha2 : a.toNat ≤ 57)
    (h1 : ∀ d ∈ ds1, is_numeric d = true) :
    fromStr (a :: ds1 ++ '_' :: '_' :: rest) = some (Except.error (Error.invalidCharacter
      (State.number NumberType.dec NumberState.underscore 0) '_')) := by
  have hcsp : a ≠ ' ' := by
    have v : (' ' : Char).toNat = 32 := rfl
    intro h; rw [h] at ha1; omega
  have hstep1 : stepLine (a :: ds1 ++ '_' :: '_' :: rest) 0 a State.indent 0 [] =
      some (Except.ok (State.number NumberType.dec NumberState.normal 0, 0, [])) := by
    simp only [stepLine]
    rw [if_neg hcsp]
    simp only [dispatch]
    rw [match_first_char_digit 0 ha1 ha2]
    rfl
  show runFrom (a :: ds1 ++ '_' :: '_' :: rest) (a :: ds1 ++ '_' :: '_' :: rest) 0
    State.indent 0 [] = _
  simp only [runFrom]
  rw [hstep1]
  show runFrom (a :: ds1 ++ '_' :: '_' :: rest) (ds1 ++ '_' :: '_' :: rest) (0 + utf8Len a)
    (State.number NumberType.dec NumberState.normal 0) 0 [] = _
  rw [runFrom_dec_digits_mid (a :: ds1 ++ '_' :: '_' :: rest) ds1 ('_' :: '_' :: rest) h1
    (0 + utf8Len a) 0 0 []]
  simp only [runFrom]
  rw [stepLine_dec_eq,
    if_neg (show ¬ is_numeric '_' = true by decide),
    if_pos (show ('_' : Char) = '_' ∧ NumberState.normal = NumberState.normal from ⟨rfl, rfl⟩)]
  show runFrom (a :: ds1 ++ '_' :: '_' :: rest) ('_' :: rest)
    (0 + utf8Len a + byteLen ds1 + utf8Len '_')
    (State.number NumberType.dec NumberState.underscore 0) 0 [] = _
  simp only [runFrom]
  rw [stepLine_dec_eq,
    if_neg (show ¬ is_numeric '_' = true by decide),
    if_neg (show ¬(('_' : Char) = '_' ∧ NumberState.underscore = NumberState.normal) by decide),
    if_neg (show ¬(NumberState.underscore = NumberState.normal) by decide)]

theorem c4_leading_underscore (rest : List Char) :
    fromStr ('_' :: rest) =
      some (Except.error (Error.invalidCharacter State.indent '_')) := by
  show runFrom ('_' :: rest) ('_' :: rest) 0 State.indent 0 [] = _
  simp only [runFrom]
  have hstep : stepLine ('_' :: rest) 0 '_' State.indent 0 [] =
      some (Except.error (Error.invalidCharacter State.indent '_')) := by
    simp only [stepLine]
    rw [if_neg (show ('_' : Char) ≠ ' ' by decide)]
    rfl
  rw [hstep]

theorem c4_hob_underscore (pr : Char) (t : NumberType) (ds : List Char) (rest : List Char)
    (hprt : ((pr = 'x' ∨ pr = 'X') ∧ t = NumberType.hex) ∨
      ((pr = 'o' ∨ pr = 'O') ∧ t = NumberType.oct) ∨
      ((pr = 'b' ∨ pr = 'B') ∧ t = NumberType.bin))
    (hds : ∀ d ∈ ds, isDigitRadix d t.radix = true) :
    fromStr ('0' :: pr :: (ds ++ '_' :: rest)) =
      some (Except.error
        (Error.invalidCharacter (State.number t NumberState.normal 0) '_')) := by
  rcases hprt with ⟨hpr, rfl⟩ | ⟨hpr, rfl⟩ | ⟨hpr, rfl⟩
  · have hupr : utf8Len pr = 1 := by rcases hpr with rfl | rfl <;> rfl
    have hbds : byteLen ds = ds.length := byteLen_digits hds
    have htk : ('0' :: pr :: (ds ++ '_' :: rest)).take (ds.length + 1 + 1) =
        '0' :: pr :: ds := by
      rw [List.take_succ_cons, List.take_succ_cons, List.take_left' rfl]
    have hkb : byteLen (('0' :: pr :: (ds ++ '_' :: rest)).take (ds.length + 1 + 1)) =
        2 + byteLen ds := by
      rw [htk, byteLen_cons, byteLen_cons, hupr, hbds]
      have h0 : utf8Len '0' = 1 := rfl
      omega
    have hslice : byteSlice ('0' :: pr :: (ds ++ '_' :: rest)) 0 (2 + byteLen ds) =
        some ('0' :: pr :: ds) := by
      have h := byteSlice_boundary ('0' :: pr :: (ds ++ '_' :: rest))
        (show 0 ≤ ds.length + 1 + 1 by omega)
      rw [show byteLen (('0' :: pr :: (ds ++ '_' :: rest)).take 0) = 0 from rfl, hkb,
        List.drop_zero, htk] at h
      exact h
    show runFrom ('0' :: pr :: (ds ++ '_' :: rest)) ('0' :: pr :: (ds ++ '_' :: rest)) 0
      State.indent 0 [] = _
    simp only [runFrom]
    have hstep1 : stepLine ('0' :: pr :: (ds ++ '_' :: rest)) 0 '0' State.indent 0 [] =
        some (Except.ok (State.zero, 0, [])) := by
      simp only [stepLine]
      rw [if_neg (show ('0' : Char) ≠ ' ' by decide)]
      rfl
    rw [hstep1]
    show runFrom ('0' :: pr :: (ds ++ '_' :: rest)) (pr :: (ds ++ '_' :: rest))
      (0 + utf8Len '0') State.zero 0 [] = _
    rw [show (0 + utf8Len '0' : Nat) = 1 from rfl]
    simp only [runFrom]
    have hstep2 : stepLine ('0' :: pr :: (ds ++ '_' :: rest)) 1 pr State.zero 0 [] =
        some (Except.ok (State.number NumberType.hex NumberState.normal 0, 0, [])) := by
      simp only [stepLine]
      rw [if_pos hpr, if_neg (show (1 : Nat) ≠ 0 by decide)]
    rw [hstep2]
    show runFrom ('0' :: pr :: (ds ++ '_' :: rest)) (ds ++ '_' :: rest) (1 + utf8Len pr)
      (State.number NumberType.hex NumberState.normal 0) 0 [] = _
    rw [show 1 + utf8Len pr = 2 from by rw [hupr]]
    rw [runFrom_hob_digits_mid ('0' :: pr :: (ds ++ '_' :: rest)) NumberType.hex
      (Or.inl rfl) ds ('_' :: rest) hds 2 0 0 []]
    simp only [runFrom]
    have hstep3 : stepLine ('0' :: pr :: (ds ++ '_' :: rest)) (2 + byteLen ds) '_'
        (State.number NumberType.hex NumberState.normal 0) 0 [] =
        some (Except.error
          (Error.invalidCharacter (State.number NumberType.hex NumberState.normal 0) '_')) := by
      rw [stepLine_hex_eq,
        if_neg (show ¬ isDigitRadix '_' NumberType.hex.radix = true by decide)]
      unfold endToken
      rw [hslice]
      rfl
    rw [hstep3]
  · have hupr : utf8Len pr = 1 := by rcases hpr with rfl | rfl <;> rfl
    have hbds : byteLen ds = ds.length := byteLen_digits hds
    have htk : ('0' :: pr :: (ds ++ '_' :: rest)).take (ds.length + 1 + 1) =
        '0' :: pr :: ds := by
      rw [List.take_succ_cons, List.take_succ_cons, List.take_left' rfl]
    have hkb : byteLen (('0' :: pr :: (ds ++ '_' :: rest)).take (ds.length + 1 + 1)) =
        2 + byteLen ds := by
      rw [htk, byteLen_cons, byteLen_cons, hupr, hbds]
      have h0 : utf8Len '0' = 1 := rfl
      omega
    have hslice : byteSlice ('0' :: pr :: (ds ++ '_' :: rest)) 0 (2 + byteLen ds) =
        some ('0' :: pr :: ds) := by
      have h := byteSlice_boundary ('0' :: pr :: (ds ++ '_' :: rest))
        (show 0 ≤ ds.length + 1 + 1 by omega)
      rw [show byteLen (('0' :: pr :: (ds ++ '_' :: rest)).take 0) = 0 from rfl, hkb,
        List.drop_zero, htk] at h
      exact h
    show runFrom ('0' :: pr :: (ds ++ '_' :: rest)) ('0' :: pr :: (ds ++ '_' :: rest)) 0
      State.indent 0 [] = _
    simp only [runFrom]
    have hstep1 : stepLine ('0' :: pr :: (ds ++ '_' :: rest)) 0 '0' State.indent 0 [] =
        some (Except.ok (State.zero, 0, [])) := by
      simp only [stepLine]
      rw [if_neg (show ('0' : Char) ≠ ' ' by decide)]
      rfl
    rw [hstep1]
    show runFrom ('0' :: pr :: (ds ++ '_' :: rest)) (pr :: (ds ++ '_' :: rest))
      (0 + utf8Len '0') State.zero 0 [] = _
    rw [show (0 + utf8Len '0' : Nat) = 1 from rfl]
    simp only [runFrom]
    have hstep2 : stepLine ('0' :: pr :: (ds ++ '_' :: rest)) 1 pr State.zero 0 [] =
        some (Except.ok (State.number NumberType.oct NumberState.normal 0, 0, [])) := by
      simp only [stepLine]
      rw [if_neg (show ¬(pr = 'x' ∨ pr = 'X') by rcases hpr with rfl | rfl <;> decide),
        if_neg (show ¬(pr = 'b' ∨ pr = 'B') by rcases hpr with rfl | rfl <;> decide),
        if_pos hpr, if_neg (show (1 : Nat) ≠ 0 by decide)]
    rw [hstep2]
    show runFrom ('0' :: pr :: (ds ++ '_' :: rest)) (ds ++ '_' :: rest) (1 + utf8Len pr)
      (State.number NumberType.oct NumberState.normal 0) 0 [] = _
    rw [show 1 + utf8Len pr = 2 from by rw [hupr]]
    rw [runFrom_hob_digits_mid ('0' :: pr :: (ds ++ '_' :: rest)) NumberType.oct
      (Or.inr (Or.inl rfl)) ds ('_' :: rest) hds 2 0 0 []]
    simp only [runFrom]
    have hstep3 : stepLine ('0' :: pr :: (ds ++ '_' :: rest)) (2 + byteLen ds) '_'
        (State.number NumberType.oct NumberState.normal 0) 0 [] =
        some (Except.error
          (Error.invalidCharacter (State.number NumberType.oct NumberState.normal 0) '_')) := by
      rw [stepLine_oct_eq,
        if_neg (show ¬ isDigitRadix '_' NumberType.oct.radix = true by decide)]
      unfold endToken
      rw [hslice]
      rfl
    rw [hstep3]
  · have hupr : utf8Len pr = 1 := by rcases hpr with rfl | rfl <;> rfl
    have hbds : byteLen ds = ds.length := byteLen_digits hds
    have htk : ('0' :: pr :: (ds ++ '_' :: rest)).take (ds.length + 1 + 1) =
        '0' :: pr :: ds := by
      rw [List.take_succ_cons, List.take_succ_cons, List.take_left' rfl]
    have hkb : byteLen (('0' :: pr :: (ds ++ '_' :: rest)).take (ds.length + 1 + 1)) =
        2 + byteLen ds := by
      rw [htk, byteLen_cons, byteLen_cons, hupr, hbds]
      have h0 : utf8Len '0' = 1 := rfl
      omega
    have hslice : byteSlice ('0' :: pr :: (ds ++ '_' :: rest)) 0 (2 + byteLen ds) =
        some ('0' :: pr :: ds) := by
      have h := byteSlice_boundary ('0' :: pr :: (ds ++ '_' :: rest))
        (show 0 ≤ ds.length + 1 + 1 by omega)
      rw [show byteLen (('0' :: pr :: (ds ++ '_' :: rest)).take 0) = 0 from rfl, hkb,
        List.drop_zero, htk] at h
      exact h
    show runFrom ('0' :: pr :: (ds ++ '_' :: rest)) ('0' :: pr :: (ds ++ '_' :: rest)) 0
      State.indent 0 [] = _
    simp only [runFrom]
    have hstep1 : stepLine ('0' :: pr :: (ds ++ '_' :: rest)) 0 '0' State.indent 0 [] =
        some (Except.ok (State.zero, 0, [])) := by
      simp only [stepLine]
      rw [if_neg (show ('0' : Char) ≠ ' ' by decide)]
      rfl
    rw [hstep1]
    show runFrom ('0' :: pr :: (ds ++ '_' :: rest)) (pr :: (ds ++ '_' :: rest))
      (0 + utf8Len '0') State.zero 0 [] = _
    rw [show (0 + utf8Len '0' : Nat) = 1 from rfl]
    simp only [runFrom]
    have hstep2 : stepLine ('0' :: pr :: (ds ++ '_' :: rest)) 1 pr State.zero 0 [] =
        some (Except.ok (State.number NumberType.bin NumberState.normal 0, 0, [])) := by
      simp only [stepLine]
      rw [if_neg (show ¬(pr = 'x' ∨ pr = 'X') by rcases hpr with rfl | rfl <;> decide),
        if_pos hpr, if_neg (show (1 : Nat) ≠ 0 by decide)]
    rw [hstep2]
    show runFrom ('0' :: pr :: (ds ++ '_' :: rest)) (ds ++ '_' :: rest) (1 + utf8Len pr)
      (State.number NumberType.bin NumberState.normal 0) 0 [] = _
    rw [show 1 + utf8Len pr = 2 from by rw [hupr]]
    rw [runFrom_hob_digits_mid ('0' :: pr :: (ds ++ '_' :: rest)) NumberType.bin
      (Or.inr (Or.inr rfl)) ds ('_' :: rest) hds 2 0 0 []]
    simp only [runFrom]
    have hstep3 : stepLine ('0' :: pr :: (ds ++ '_' :: rest)) (2 + byteLen ds) '_'
        (State.number NumberType.bin NumberState.normal 0) 0 [] =
        some (Except.error
          (Error.invalidCharacter (State.number NumberType.bin NumberState.normal 0) '_')) := by
      rw [stepLine_bin_eq,
        if_neg (show ¬ isDigitRadix '_' NumberType.bin.radix = true by decide)]
      unfold endToken
      rw [hslice]
      rfl
    rw [hstep3]

/-! ## The claims -/

/-- C1: the claim states that a Dec-radix literal ended mid-line by a
non-digit is emitted with the Dec-tagged constructor (`DecNumber`).  The
code instead pushes `Token::HexNumber` on that path, while the
end-of-line path uses the radix-correct builder; the design
(`NumberType::token_builder`) and the spec identify the Dec-tagged token
as the intent, so this is a code bug.  Evaluating the code at the
failing input `"1+1"`: the first literal is Hex-tagged, the ending `'+'`
is dispatched as a fresh token start, and the literal resolved at end of
line is Dec-tagged. -/
theorem c1_dec_midline_hex_tagged :
    fromStr ['1', '+', '1'] = some (Except.ok ⟨0,
      [Token.hexNumber ['1'], Token.operator Operator.plus, Token.decNumber ['1']]⟩) := rfl

/-- C2 (amended): for every line that tokenizes successfully and does not
end with a space character, concatenating `offset` spaces with the
emitted lexemes in scan order (operators rendering as `":"`/`"+"`)
reproduces the original line exactly, and re-tokenizing that
concatenation yields the same offset and token sequence. -/
theorem c2_roundtrip_amended (input : List Char) (res : LineTokenizer)
    (h : fromStr input = some (Except.ok res))
    (hns : input.getLast? ≠ some ' ') :
    List.replicate res.offset ' ' ++ renderTokens res.tokens = input ∧
      fromStr (List.replicate res.offset ' ' ++ renderTokens res.tokens) =
        some (Except.ok res) := by
  obtain ⟨r, hr, hprop⟩ := fromStr_sound input
  rw [h] at hr
  have hre : r = Except.ok res := (Option.some.inj hr).symm
  rcases hprop res hre with hgood | hsp
  · exact ⟨hgood, by rw [hgood, h]⟩
  · exact absurd hsp hns

/-- C2 counterexample: the single-space line tokenizes successfully with
offset 0 and no tokens, but the reconstruction is empty, not `" "`. -/
theorem c2_counterexample :
    fromStr [' '] = some (Except.ok ⟨0, []⟩) ∧
      List.replicate (0 : Nat) ' ' ++ renderTokens [] ≠ [' '] :=
  ⟨rfl, by decide⟩

theorem c2_witness :
    List.replicate (0 : Nat) ' ' ++
        renderTokens [Token.identifier ['a'], Token.operator Operator.colon] = ['a', ':'] ∧
      fromStr (List.replicate (0 : Nat) ' ' ++
        renderTokens [Token.identifier ['a'], Token.operator Operator.colon]) =
        some (Except.ok ⟨0, [Token.identifier ['a'], Token.operator Operator.colon]⟩) :=
  c2_roundtrip_amended ['a', ':']
    ⟨0, [Token.identifier ['a'], Token.operator Operator.colon]⟩ rfl (by decide)

/-- C3 (amended): a non-empty input of ASCII decimal digits tokenizes to
exactly one `DecNumber` equal to the input, provided the first digit is
not `'0'` (a leading `'0'` enters the `Zero` radix-prefix state and the
line fails instead). -/
theorem c3_dec_digits_amended (c : Char) (cs : List Char)
    (h1 : 49 ≤ c.toNat) (h2 : c.toNat ≤ 57)
    (hcs : ∀ d ∈ cs, is_numeric d = true) :
    fromStr (c :: cs) = some (Except.ok ⟨0, [Token.decNumber (c :: cs)]⟩) := by
  have hcsp : c ≠ ' ' := by
    have v : (' ' : Char).toNat = 32 := rfl
    intro h; rw [h] at h1; omega
  have hstep : stepLine (c :: cs) 0 c State.indent 0 [] =
      some (Except.ok (State.number NumberType.dec NumberState.normal 0, 0, [])) := by
    simp only [stepLine]
    rw [if_neg hcsp]
    simp only [dispatch]
    rw [match_first_char_digit 0 h1 h2]
    rfl
  show runFrom (c :: cs) (c :: cs) 0 State.indent 0 [] = _
  simp only [runFrom]
  rw [hstep]
  show runFrom (c :: cs) cs (0 + utf8Len c)
    (State.number NumberType.dec NumberState.normal 0) 0 [] = _
  rw [runFrom_dec_digits (c :: cs) cs hcs (0 + utf8Len c) 0 0 []]
  rfl

/-- C3 counterexample: the all-digit input `"0"` does not tokenize to a
`DecNumber`; it ends in the `Zero` state and fails. -/
theorem c3_counterexample :
    fromStr ['0'] = some (Except.error (Error.invalidTerminalState State.zero)) := rfl

theorem c3_witness :
    (49 ≤ ('1' : Char).toNat ∧ ('1' : Char).toNat ≤ 57 ∧
      ∀ d ∈ ['2', '3'], is_numeric d = true) ∧
    fromStr ['1', '2', '3'] = some (Except.ok ⟨0, [Token.decNumber ['1', '2', '3']]⟩) :=
  ⟨⟨by decide, by decide, by decide⟩,
    c3_dec_digits_amended '1' ['2', '3'] (by decide) (by decide) (by decide)⟩

/-- C4 (amended): the underscore-separator rule is implemented only for
the Dec radix.  A decimal literal with exactly one underscore between
two digit runs tokenizes as a single `DecNumber` whose lexeme includes
the underscore; a leading underscore fails at dispatch, and trailing or
doubled underscores fail in the number state.  For Hex, Oct and Bin an
underscore is never part of the literal at all — after any run of
radix-valid digits it terminates the literal and is dispatched as a
fresh token start, which fails with `InvalidCharacter`. -/
theorem c4_separator_amended (a b pr : Char) (t : NumberType)
    (ds1 ds2 ds3 rest : List Char)
    (ha1 : 49 ≤ a.toNat) (ha2 : a.toNat ≤ 57)
    (h1 : ∀ d ∈ ds1, is_numeric d = true)
    (hb : is_numeric b = true)
    (h2 : ∀ d ∈ ds2, is_numeric d = true)
    (hprt : ((pr = 'x' ∨ pr = 'X') ∧ t = NumberType.hex) ∨
      ((pr = 'o' ∨ pr = 'O') ∧ t = NumberType.oct) ∨
      ((pr = 'b' ∨ pr = 'B') ∧ t = NumberType.bin))
    (hds3 : ∀ d ∈ ds3, isDigitRadix d t.radix = true) :
    fromStr (a :: ds1 ++ '_' :: b :: ds2) =
      some (Except.ok ⟨0, [Token.decNumber (a :: ds1 ++ '_' :: b :: ds2)]⟩) ∧
    fromStr ('_' :: rest) =
      some (Except.error (Error.invalidCharacter State.indent '_')) ∧
    fromStr (a :: ds1 ++ ['_']) = some (Except.error (Error.invalidTerminalState
      (State.number NumberType.dec NumberState.underscore 0))) ∧
    fromStr (a :: ds1 ++ '_' :: '_' :: rest) = some (Except.error (Error.invalidCharacter
      (State.number NumberType.dec NumberState.underscore 0) '_')) ∧
    fromStr ('0' :: pr :: (ds3 ++ '_' :: rest)) =
      some (Except.error
        (Error.invalidCharacter (State.number t NumberState.normal 0) '_')) :=
  ⟨c4_dec_sep a ds1 b ds2 ha1 ha2 h1 hb h2,
    c4_leading_underscore rest,
    c4_dec_trailing a ds1 ha1 ha2 h1,
    c4_dec_doubled a ds1 rest ha1 ha2 h1,
    c4_hob_underscore pr t ds3 rest hprt hds3⟩

/-- C4 counterexample: `"0x1_1"` — one underscore between two valid hex
digits — does not tokenize as a single `HexNumber`; it fails with
`InvalidCharacter`, refuting radix-independence of the separator rule. -/
theorem c4_counterexample :
    fromStr ['0', 'x', '1', '_', '1'] = some (Except.error (Error.invalidCharacter
      (State.number NumberType.hex NumberState.normal 0) '_')) ∧
    fromStr ['0', 'x', '1', '_', '1'] ≠
      some (Except.ok ⟨0, [Token.hexNumber ['0', 'x', '1', '_', '1']]⟩) := by
  refine ⟨rfl, ?_⟩
  intro h
  have he : fromStr ['0', 'x', '1', '_', '1'] = some (Except.error (Error.invalidCharacter
    (State.number NumberType.hex NumberState.normal 0) '_')) := rfl
  rw [he] at h
  exact Except.noConfusion (Option.some.inj h)

theorem c4_witness :
    (49 ≤ ('1' : Char).toNat ∧ ('1' : Char).toNat ≤ 57 ∧
      (∀ d ∈ ['2'], is_numeric d = true) ∧ is_numeric '3' = true ∧
      (∀ d ∈ ['4'], is_numeric d = true) ∧
      ((('x' : Char) = 'x' ∨ ('x' : Char) = 'X') ∧ NumberType.hex = NumberType.hex ∨
        ((('x' : Char) = 'o' ∨ ('x' : Char) = 'O') ∧ NumberType.hex = NumberType.oct) ∨
        ((('x' : Char) = 'b' ∨ ('x' : Char) = 'B') ∧ NumberType.hex = NumberType.bin)) ∧
      (∀ d ∈ ['A'], isDigitRadix d NumberType.hex.radix = true)) ∧
    (fromStr ['1', '2', '_', '3', '4'] =
        some (Except.ok ⟨0, [Token.decNumber ['1', '2', '_', '3', '4']]⟩) ∧
      fromStr ['_', '5'] =
        some (Except.error (Error.invalidCharacter State.indent '_')) ∧
      fromStr ['1', '2', '_'] = some (Except.error (Error.invalidTerminalState
        (State.number NumberType.dec NumberState.underscore 0))) ∧
      fromStr ['1', '2', '_', '_', '5'] = some (Except.error (Error.invalidCharacter
        (State.number NumberType.dec NumberState.underscore 0) '_')) ∧
      fromStr ['0', 'x', 'A', '_', '5'] =
        some (Except.error
          (Error.invalidCharacter (State.number NumberType.hex NumberState.normal 0) '_'))) :=
  ⟨⟨by decide, by decide, by decide, by decide, by decide, by decide, by decide⟩,
    c4_separator_amended '1' '3' 'x' NumberType.hex ['2'] ['4'] ['A'] ['5']
      (by decide) (by decide) (by decide) (by decide) (by decide) (by decide) (by decide)⟩

/-- C5 (amended): an identifier run whose starting codepoint is not one
of the string-prefix letters (b, f, r, u in either case) tokenizes alone
to exactly one Identifier token equal to the run, and followed by `':'`
to `[Identifier(run), Operator(Colon)]`.  (Runs starting with a prefix
letter enter the string-prefix negotiation instead.) -/
theorem c5_identifier_amended (c : Char) (cs : List Char)
    (hstart : is_xid_start c = true)
    (hnp : ¬(toAsciiLowercase c = 'b' ∨ toAsciiLowercase c = 'f' ∨
      toAsciiLowercase c = 'r' ∨ toAsciiLowercase c = 'u'))
    (hcs : ∀ d ∈ cs, is_xid_continue d = true) :
    fromStr (c :: cs) = some (Except.ok ⟨0, [Token.identifier (c :: cs)]⟩) ∧
    fromStr (c :: (cs ++ [':'])) = some (Except.ok ⟨0,
      [Token.identifier (c :: cs), Token.operator Operator.colon]⟩) := by
  have hs : (65 ≤ c.toNat ∧ c.toNat ≤ 90) ∨ (97 ≤ c.toNat ∧ c.toNat ≤ 122) := by
    simpa [is_xid_start, decide_eq_true_eq] using hstart
  have hcne : c ≠ ' ' := by
    intro h
    have v : (' ' : Char).toNat = 32 := rfl
    rcases hs with ⟨hA, hB⟩ | ⟨hA, hB⟩ <;> (rw [h] at hA; omega)
  constructor
  · show runFrom (c :: cs) (c :: cs) 0 State.indent 0 [] = _
    simp only [runFrom]
    have hstep : stepLine (c :: cs) 0 c State.indent 0 [] =
        some (Except.ok (State.identifier 0, 0, [])) := by
      simp only [stepLine]
      rw [if_neg hcne]
      simp only [dispatch]
      rw [match_first_char_id 0 hstart hnp]
      rfl
    rw [hstep]
    show runFrom (c :: cs) cs (0 + utf8Len c) (State.identifier 0) 0 [] = _
    rw [runFrom_identifier_run (c :: cs) cs hcs (0 + utf8Len c) 0 0 []]
    rfl
  · show runFrom (c :: (cs ++ [':'])) (c :: (cs ++ [':'])) 0 State.indent 0 [] = _
    simp only [runFrom]
    have hstep : stepLine (c :: (cs ++ [':'])) 0 c State.indent 0 [] =
        some (Except.ok (State.identifier 0, 0, [])) := by
      simp only [stepLine]
      rw [if_neg hcne]
      simp only [dispatch]
      rw [match_first_char_id 0 hstart hnp]
      rfl
    rw [hstep]
    show runFrom (c :: (cs ++ [':'])) (cs ++ [':']) (0 + utf8Len c)
      (State.identifier 0) 0 [] = _
    rw [Nat.zero_add]
    have hcall := runFrom_identifier_colon (c :: (cs ++ [':'])) 0 cs 1
      (Nat.succ_le_succ (Nat.zero_le _)) rfl hcs (by omega) 0 []
    have hb1 : byteLen ((c :: (cs ++ [':'])).take 1) = utf8Len c := by
      rw [show (c :: (cs ++ [':'])).take 1 = [c] from rfl]
      simp [byteLen]
    rw [hb1] at hcall
    have htk : ((c :: (cs ++ [':'])).take (1 + cs.length)).drop 0 = c :: cs := by
      rw [List.drop_zero, show 1 + cs.length = cs.length + 1 from by omega,
        List.take_succ_cons, List.take_left' rfl]
    rw [htk] at hcall
    exact hcall

/-- C5 counterexample: `"r"` is an identifier run (one XID-Start
codepoint), but tokenizing it fails: the letter enters the string-prefix
negotiation and the line ends mid-negotiation. -/
theorem c5_counterexample :
    is_xid_start 'r' = true ∧
    fromStr ['r'] =
      some (Except.error (Error.invalidTerminalState State.stringPrefixSingle)) :=
  ⟨by decide, rfl⟩

theorem c5_witness :
    (is_xid_start 'x' = true ∧
      ¬(toAsciiLowercase 'x' = 'b' ∨ toAsciiLowercase 'x' = 'f' ∨
        toAsciiLowercase 'x' = 'r' ∨ toAsciiLowercase 'x' = 'u') ∧
      ∀ d ∈ ['y'], is_xid_continue d = true) ∧
    fromStr ['x', 'y'] = some (Except.ok ⟨0, [Token.identifier ['x', 'y']]⟩) ∧
    fromStr ['x', 'y', ':'] = some (Except.ok ⟨0,
      [Token.identifier ['x', 'y'], Token.operator Operator.colon]⟩) :=
  ⟨⟨by decide, by decide, by decide⟩,
    c5_identifier_amended 'x' ['y'] (by decide) (by decide) (by decide)⟩

/-- C6 (amended): when a single string-prefix letter is followed by a
character that is neither a quote nor a compatible second prefix letter,
the tokenizer re-enters the Identifier state from the original start
position but *consumes* the current character into the identifier
without testing it against the continuing class; so for a two-character
line the result is one Identifier token containing both characters, not
an Identifier plus a freshly-dispatched token. -/
theorem c6_reinterpret_amended (p c : Char)
    (hp : toAsciiLowercase p = 'b' ∨ toAsciiLowercase p = 'f' ∨
      toAsciiLowercase p = 'r' ∨ toAsciiLowercase p = 'u')
    (hc1 : ¬(((toAsciiLowercase p = 'b' ∨ toAsciiLowercase p = 'f') ∧
        toAsciiLowercase c = 'r') ∨
      (toAsciiLowercase p = 'r' ∧ (toAsciiLowercase c = 'b' ∨ toAsciiLowercase c = 'f'))))
    (hc2 : toAsciiLowercase c ≠ singleQuoteChar)
    (hc3 : toAsciiLowercase c ≠ doubleQuoteChar) :
    fromStr [p, c] = some (Except.ok ⟨0, [Token.identifier [p, c]]⟩) := by
  have hpsz : utf8Len p = 1 := by
    rcases hp with h | h | h | h <;> exact utf8Len_one_of_toLower_ascii h (by decide)
  have hpne : p ≠ ' ' := by
    intro h
    subst h
    rcases hp with h | h | h | h <;> exact absurd h (by decide)
  have hmfc : match_first_char 0 p = (some State.stringPrefixSingle, none) := by
    simp only [match_first_char]
    rw [if_neg (show toAsciiLowercase p ≠ '#' by
      rcases hp with h | h | h | h <;> (rw [h]; decide))]
    rw [if_pos hp]
  show runFrom [p, c] [p, c] 0 State.indent 0 [] = _
  simp only [runFrom]
  have hstep1 : stepLine [p, c] 0 p State.indent 0 [] =
      some (Except.ok (State.stringPrefixSingle, 0, [])) := by
    simp only [stepLine]
    rw [if_neg hpne]
    simp only [dispatch]
    rw [hmfc]
    rfl
  rw [hstep1]
  show runFrom [p, c] [c] (0 + utf8Len p) State.stringPrefixSingle 0 [] = _
  rw [Nat.zero_add, hpsz]
  simp only [runFrom]
  have hstep2 : stepLine [p, c] 1 c State.stringPrefixSingle 0 [] =
      some (Except.ok (State.identifier 0, 0, [])) := by
    simp only [stepLine]
    rw [if_neg (show (1 : Nat) ≠ 0 by decide)]
    rw [show sliceFrom [p, c] (1 - 1) = some (p :: [c]) from rfl]
    simp only []
    rw [if_neg hc1, if_neg hc2, if_neg hc3]
  rw [hstep2]
  show runFrom [p, c] [] (1 + utf8Len c) (State.identifier 0) 0 [] = _
  rfl

/-- C6 counterexample: `"b+"` yields a single Identifier token `"b+"`,
not `[Identifier("b"), Operator(Plus)]` as tokenizing under the
Identifier rules would. -/
theorem c6_counterexample :
    fromStr ['b', '+'] = some (Except.ok ⟨0, [Token.identifier ['b', '+']]⟩) ∧
    [Token.identifier ['b', '+']] ≠
      [Token.identifier ['b'], Token.operator Operator.plus] :=
  ⟨rfl, by decide⟩

theorem c6_witness :
    ((toAsciiLowercase 'b' = 'b' ∨ toAsciiLowercase 'b' = 'f' ∨
      toAsciiLowercase 'b' = 'r' ∨ toAsciiLowercase 'b' = 'u') ∧
      ¬(((toAsciiLowercase 'b' = 'b' ∨ toAsciiLowercase 'b' = 'f') ∧
          toAsciiLowercase '+' = 'r') ∨
        (toAsciiLowercase 'b' = 'r' ∧
          (toAsciiLowercase '+' = 'b' ∨ toAsciiLowercase '+' = 'f'))) ∧
      toAsciiLowercase '+' ≠ singleQuoteChar ∧ toAsciiLowercase '+' ≠ doubleQuoteChar) ∧
    fromStr ['b', '+'] = some (Except.ok ⟨0, [Token.identifier ['b', '+']]⟩) :=
  ⟨⟨by decide, by decide, by decide, by decide⟩,
    c6_reinterpret_amended 'b' '+' (by decide) (by decide) (by decide) (by decide)⟩

/-- C7: the three separator examples of the spec: `"100_000_000"` is one
DecNumber with the exact lexeme; `"100_000_000_"` fails (the line ends
in the Underscore sub-state); `"100__000_000"` fails (doubled
separator). -/
theorem c7_separator_examples :
    fromStr ['1', '0', '0', '_', '0', '0', '0', '_', '0', '0', '0'] =
        some (Except.ok ⟨0,
          [Token.decNumber ['1', '0', '0', '_', '0', '0', '0', '_', '0', '0', '0']]⟩) ∧
    fromStr ['1', '0', '0', '_', '0', '0', '0', '_', '0', '0', '0', '_'] =
        some (Except.error (Error.invalidTerminalState
          (State.number NumberType.dec NumberState.underscore 0))) ∧
    fromStr ['1', '0', '0', '_', '_', '0', '0', '0', '_', '0', '0', '0'] =
        some (Except.error (Error.invalidCharacter
          (State.number NumberType.dec NumberState.underscore 0) '_')) :=
  ⟨rfl, rfl, rfl⟩

/-- C8: a line whose first non-space character is `'#'` tokenizes to
exactly one Comment token spanning from the `'#'` to the end of the
line, whatever follows the `'#'`; the offset is the number of leading
spaces. -/
theorem c8_comment_line (n : Nat) (rest : List Char) :
    fromStr (List.replicate n ' ' ++ '#' :: rest) =
      some (Except.ok ⟨n, [Token.comment ('#' :: rest)]⟩) := by
  show runFrom (List.replicate n ' ' ++ '#' :: rest)
    (List.replicate n ' ' ++ '#' :: rest) 0 State.indent 0 [] = _
  rw [runFrom_indent_spaces (List.replicate n ' ' ++ '#' :: rest) n ('#' :: rest) 0,
    Nat.zero_add]
  simp only [runFrom]
  have hstep : stepLine (List.replicate n ' ' ++ '#' :: rest) n '#' State.indent 0 [] =
      some (Except.ok (State.comment n, n, [])) := by
    simp only [stepLine]
    rw [if_neg (show ('#' : Char) ≠ ' ' by decide)]
    rfl
  rw [hstep]
  show runFrom (List.replicate n ' ' ++ '#' :: rest) rest (n + utf8Len '#')
    (State.comment n) n [] = _
  rw [runFrom_comment (List.replicate n ' ' ++ '#' :: rest) rest (n + utf8Len '#') n n []]
  have hsl : sliceFrom (List.replicate n ' ' ++ '#' :: rest) n = some ('#' :: rest) := by
    have h2 : byteLen ((List.replicate n ' ' ++ '#' :: rest).take n) = n := by
      rw [List.take_left' (List.length_replicate n ' ')]
      rw [byteLen_spaces (fun x hx => List.eq_of_mem_replicate hx), List.length_replicate]
    have h3 := sliceFrom_boundary (List.replicate n ' ' ++ '#' :: rest) n
    rw [h2, List.drop_left' (List.length_replicate n ' ')] at h3
    exact h3
  rw [hsl]
  rfl

theorem c8_witness :
    fromStr (List.replicate 2 ' ' ++ '#' :: ['h', 'i']) =
      some (Except.ok ⟨2, [Token.comment ('#' :: ['h', 'i'])]⟩) :=
  c8_comment_line 2 ['h', 'i']

/-- C9: `from_str` is total and panic-free on every input: every byte
slice it takes is on character boundaries, the `index - 1` computations
cannot underflow, and the result is always `Ok` or one of the two error
variants.  In the embedding every would-be panic is the `none` value, so
panic-freedom is exactly `isSome`. -/
theorem c9_from_str_total (input : List Char) : (fromStr input).isSome := by
  obtain ⟨r, hr, -⟩ := fromStr_sound input
  rw [hr]
  rfl

theorem c9_witness : (fromStr ['0', 'x']).isSome := c9_from_str_total ['0', 'x']

/-- C10: a line whose first non-space character is `'_'` fails with
`InvalidCharacter` in the `Indent` state: the underscore is not in the
XID-Start class and matches no other dispatch case. -/
theorem c10_underscore_rejected (n : Nat) (rest : List Char) :
    fromStr (List.replicate n ' ' ++ '_' :: rest) =
      some (Except.error (Error.invalidCharacter State.indent '_')) := by
  show runFrom (List.replicate n ' ' ++ '_' :: rest)
    (List.replicate n ' ' ++ '_' :: rest) 0 State.indent 0 [] = _
  rw [runFrom_indent_spaces (List.replicate n ' ' ++ '_' :: rest) n ('_' :: rest) 0,
    Nat.zero_add]
  simp only [runFrom]
  have hstep : stepLine (List.replicate n ' ' ++ '_' :: rest) n '_' State.indent 0 [] =
      some (Except.error (Error.invalidCharacter State.indent '_')) := by
    simp only [stepLine]
    rw [if_neg (show ('_' : Char) ≠ ' ' by decide)]
    rfl
  rw [hstep]

theorem c10_witness :
    fromStr (List.replicate 1 ' ' ++ '_' :: ['a']) =
      some (Except.error (Error.invalidCharacter State.indent '_')) :=
  c10_underscore_rejected 1 ['a']

end Denture
